import Mathlib

/-!
Verification of the trybuild diagnostic-normalization engine and per-test
execution logic (src/normalize.rs, src/run.rs), shallowly embedded over
`List Char` as the string representation.
-/

set_option linter.unusedVariables false

abbrev Str := List Char

/-- Convert a Lean string literal into the `List Char` representation. -/
def str (s : String) : Str := s.toList

/-- Rust `char::is_whitespace`: the Unicode `White_Space` property. -/
def isWs (c : Char) : Bool :=
  let n := c.toNat
  (9 ≤ n && n ≤ 13) || n = 32 || n = 0x85 || n = 0xA0 || n = 0x1680 ||
  (0x2000 ≤ n && n ≤ 0x200A) || n = 0x2028 || n = 0x2029 || n = 0x202F ||
  n = 0x205F || n = 0x3000

/-- The path separators searched by `line.rfind(&['/', '\\'][..])`. -/
def isSep (c : Char) : Bool := c = '/' || c = '\\'

/-- Rust `str::trim_start` (restricted to removing leading whitespace). -/
def trimStart (s : Str) : Str := s.dropWhile isWs

/-- Rust `str::trim_end`: remove trailing whitespace. -/
def trimEnd (s : Str) : Str := (s.reverse.dropWhile isWs).reverse

/-- `normalize::trim`: truncate to the end-trimmed length, then push a final
newline if the result is non-empty (normalize.rs lines 20-32). -/
def trim (s : Str) : Str :=
  if trimEnd s = [] then [] else trimEnd s ++ ['\n']

/-- Split at every newline character; the final segment carries no newline. -/
def splitNl : Str → List Str
  | [] => [[]]
  | c :: rest =>
    if c = '\n' then [] :: splitNl rest
    else (splitNl rest).modifyHead (fun s => c :: s)

/-- Strip one trailing carriage return, as Rust `lines()` does for segments
that were terminated by a newline. -/
def stripCr (s : Str) : Str :=
  if s.getLast? = some '\r' then s.dropLast else s

/-- Rust `str::lines`: split on `\n`; segments terminated by `\n` lose one
trailing `\r`; a final empty segment (trailing newline) is not produced. -/
def lines (s : Str) : List Str :=
  let segs := splitNl s
  let lastSeg := segs.getLastD []
  (segs.dropLast.map stripCr) ++ (if lastSeg = [] then [] else [lastSeg])

/-- Fuel-driven worker for `replaceL`; the fuel is an upper bound on the
input length, so the zero-fuel case is unreachable when called via
`replaceL` (structural recursion keeps it kernel-reducible). -/
def replaceGo : Nat → Str → Str → Str → Str
  | 0, s, _, _ => s
  | _ + 1, [], _, _ => []
  | fuel + 1, c :: rest, pat, rep =>
    if pat ≠ [] ∧ pat.isPrefixOf (c :: rest) then
      rep ++ replaceGo fuel (List.drop pat.length (c :: rest)) pat rep
    else
      c :: replaceGo fuel rest pat rep

/-- Rust `str::replace` for a non-empty pattern: replace every leftmost
non-overlapping occurrence of `pat` by `rep`. -/
def replaceL (s pat rep : Str) : Str := replaceGo s.length s pat rep

/-- `SmartReplace::smart_replace` (normalize.rs lines 102-117): a replace
that is a no-op when the pattern is empty. -/
def smartReplace (s pat rep : Str) : Str :=
  if pat = [] then s else replaceL s pat rep

/-- Whether `pat` occurs as a contiguous substring of `s`. -/
def hasSub (pat : Str) : Str → Bool
  | [] => pat.isEmpty
  | c :: rest => pat.isPrefixOf (c :: rest) || hasSub pat rest

/-- Rust `str::find(pattern)`: index of the first substring occurrence. -/
def findSub? (pat : Str) : Str → Option Nat
  | [] => if pat = [] then some 0 else none
  | c :: rest =>
    if pat.isPrefixOf (c :: rest) then some 0
    else (findSub? pat rest).map (· + 1)

/-- Rust `str::rfind(char set)`: index of the last matching character. -/
def rfindIdx? (p : Char → Bool) (l : Str) : Option Nat :=
  match l.reverse.findIdx? p with
  | some j => some (l.length - 1 - j)
  | none => none

/-- `normalize::Normalization` (normalize.rs lines 73-83); `PartialOrd`
derives declaration order. -/
inductive Normalization
  | Basic
  | StripCouldNotCompile
  | StripCouldNotCompile2
  | StripForMoreInformation
  | StripForMoreInformation2
  | DirBackslash
  | TrimEnd
  | RustLib
deriving DecidableEq

/-- Ordinal of a normalization level (declaration order). -/
def nVal : Normalization → Nat
  | .Basic => 0
  | .StripCouldNotCompile => 1
  | .StripCouldNotCompile2 => 2
  | .StripForMoreInformation => 3
  | .StripForMoreInformation2 => 4
  | .DirBackslash => 5
  | .TrimEnd => 6
  | .RustLib => 7

/-- The `normalization >= Level` comparison from the source. -/
def nge (a b : Normalization) : Bool := nVal b ≤ nVal a

/-- `normalize::Context` (normalize.rs lines 4-9): the crate token and the
`to_string_lossy` renderings of the source and workspace directories. -/
structure Context where
  krate : Str
  source_dir : Str
  workspace : Str

/-- The context with all three substitution targets empty (also the default
`Project::new()` state: empty `source_dir` and `workspace` paths). -/
def emptyCtx : Context := ⟨[], [], []⟩

/-- The three unconditional substitutions at the end of `filter`
(normalize.rs lines 190-193). -/
def substitutions (ctx : Context) (l : Str) : Str :=
  smartReplace
    (smartReplace (smartReplace l ctx.krate (str "$CRATE"))
      ctx.source_dir (str "$DIR"))
    ctx.workspace (str "$WORKSPACE")

/-- The body of `normalize::filter` after the location-arrow rule
(normalize.rs lines 127-195). -/
def filterRest (line : Str) (n : Normalization) (ctx : Context) : Option Str :=
  if (str "::: ").isPrefixOf (trimStart line) then
    let l1 := (smartReplace line ctx.workspace (str "$WORKSPACE")).map
      (fun c => if c = '\\' then '/' else c)
    if nge n .RustLib then
      match findSub? (str "/rustlib/src/rust/src/") l1 with
      | some pos =>
        -- `line.find("::: ").unwrap()` is modelled as `getD 0`; the branch
        -- guard makes the none case unreachable in the source.
        some (l1.take ((findSub? (str "::: ") l1).getD 0 + 4) ++ str "$RUST"
          ++ l1.drop (pos + 17))
      | none => some l1
    else some l1
  else if (str "error: aborting due to ").isPrefixOf line then none
  else if line = str "To learn more, run the command again with --verbose." then none
  else if nge n .StripCouldNotCompile ∧
      (str "error: Could not compile `").isPrefixOf line then none
  else if nge n .StripCouldNotCompile2 ∧
      (str "error: could not compile `").isPrefixOf line then none
  else if nge n .StripForMoreInformation ∧
      (str "For more information about this error, try `rustc --explain").isPrefixOf line then none
  else if nge n .StripForMoreInformation2 ∧
      ((str "Some errors have detailed explanations:").isPrefixOf line ∨
       (str "For more information about an error, try `rustc --explain").isPrefixOf line) then none
  else
    let l2 := if nge n .DirBackslash ∧ ctx.source_dir ≠ [] then
        replaceL line (ctx.source_dir ++ ['\\']) (str "$DIR/")
      else line
    let l3 := if nge n .TrimEnd then trimEnd l2 else l2
    some (substitutions ctx l3)

/-- `normalize::filter` (normalize.rs lines 119-196). The location-arrow
rule fires only when the line also contains a path separator; otherwise
control falls through to the remaining rules. -/
def filter (line : Str) (n : Normalization) (ctx : Context) : Option Str :=
  if (str "--> ").isPrefixOf (trimStart line) then
    match rfindIdx? isSep line with
    | some ce =>
      -- `line.find('>').unwrap() + 2`; present because of the prefix guard.
      some (line.take (line.findIdx (fun c => c = '>') + 2) ++ str "$DIR/"
        ++ line.drop (ce + 1))
    | none => filterRest line n ctx
  else filterRest line n ctx

/-- One step of the accumulation loop in `normalize::apply`: append the kept
line, then push a newline unless the text already ends in a blank line. -/
def joinStep (acc l : Str) : Str :=
  let acc2 := acc ++ l
  if endsNlNl acc2 then acc2 else acc2 ++ ['\n']
where
  /-- `ends_with "\n\n"`. -/
  endsNlNl (x : Str) : Bool :=
    match x.reverse with
    | c :: d :: _ => c = '\n' && d = '\n'
    | _ => false

/-- The whole accumulation loop of `normalize::apply`. -/
def joinL (ls : List Str) : Str := ls.foldl joinStep []

/-- `normalize::apply` (normalize.rs lines 87-100). -/
def apply (original : Str) (n : Normalization) (ctx : Context) : Str :=
  trim (joinL ((lines original).filterMap (fun l => filter l n ctx)))

/-- `normalize::VARIATIONS` (normalize.rs lines 45-54). -/
def VARIATIONS : List Normalization :=
  [.Basic, .StripCouldNotCompile, .StripCouldNotCompile2,
   .StripForMoreInformation, .StripForMoreInformation2, .DirBackslash,
   .TrimEnd, .RustLib]

/-- Modelled from the spec: the `Variations` value referenced by run.rs
(its struct definition is not among the provided sources). Spec §3: an
ordered sequence of normalized texts, one per level from `Basic` to
`RustLib`; `preferred()` is the last entry; `any` tests entries. Consistent
with normalize.rs `matches` and `diagnostics`. -/
def variationsOf (s : Str) (ctx : Context) : List Str :=
  VARIATIONS.map (fun n => apply s n ctx)

/-- `normalize::diagnostics` (normalize.rs lines 68-71): the preferred, most
aggressively normalized rendering (`VARIATIONS.last()`). -/
def diagnostics (s : Str) (ctx : Context) : Str :=
  apply s (VARIATIONS.getLastD .Basic) ctx

/-- `normalize::matches` (normalize.rs lines 56-64): the actual output
matches when any variation equals the expected text. -/
def matchesV (ctx : Context) (expected actual : Str) : Bool :=
  (variationsOf actual ctx).any (fun v => v == expected)

/-- The matcher as exercised from run.rs lines 370-377: the stored
expectation file has `\r\n` normalized to `\n` before comparison. -/
def matchesStored (ctx : Context) (stored actual : Str) : Bool :=
  matchesV ctx (replaceL stored (str "\r\n") (str "\n")) actual

/-- `env::Update`: the expectation-update policy. -/
inductive Update
  | Wip
  | Overwrite
deriving DecidableEq

/-- The per-test error outcomes of run.rs used by the claims. -/
inductive Error
  | ShouldNotHaveCompiled
  | Mismatch
  | CargoFail
  | RunFailed
deriving DecidableEq

/-- Paths, modelled as lists of components. -/
abbrev FPath := List Str

/-- Filesystem operations performed by `check_compile_fail`, recorded as an
explicit effect trace. -/
inductive FsOp
  | createDirAll : FPath → FsOp
  | write : FPath → Str → FsOp
  | read : FPath → FsOp
deriving DecidableEq

/-- Rust `Path::with_extension` on the last component: drop the part after
the final dot (hidden files keep their name) and append the new extension. -/
def setExt (name ext : Str) : Str :=
  let stem := match rfindIdx? (fun c => c = '.') name with
    | some i => if i = 0 then name else name.take i
    | none => name
  stem ++ '.' :: ext

/-- `self.path.with_extension("stderr")` (run.rs line 345). -/
def stderrPathOf (p : FPath) : FPath :=
  p.dropLast ++ [setExt (p.getLastD []) (str "stderr")]

/-- `stderr_path.file_name().unwrap_or_else(|| OsStr::new("test.stderr"))`
(run.rs lines 354-356). -/
def fileName (p : FPath) : Str := p.getLastD (str "test.stderr")

/-- `TestSpec::check_compile_fail` (run.rs lines 327-390), as a pure
function from the build result, stored expectation state and update policy
to the per-test outcome plus the trace of filesystem operations. -/
def checkCompileFail (update : Update) (success : Bool) (stderrPath : FPath)
    (stderrExists : Bool) (stored : Str) (variations : List Str) :
    Except Error Unit × List FsOp :=
  let preferred := variations.getLastD []
  if success then
    (.error .ShouldNotHaveCompiled, [])
  else if !stderrExists then
    match update with
    | .Wip =>
      let wipDir : FPath := [str "wip"]
      let gitignorePath : FPath := wipDir ++ [str ".gitignore"]
      let wipPath : FPath := wipDir ++ [fileName stderrPath]
      (.ok (), [.createDirAll wipDir, .write gitignorePath (str "*\n"),
        .write wipPath preferred])
    | .Overwrite =>
      (.ok (), [.write stderrPath preferred])
  else
    let expected := replaceL stored (str "\r\n") (str "\n")
    if variations.any (fun v => v == expected) then
      (.ok (), [.read stderrPath])
    else
      match update with
      | .Wip => (.error .Mismatch, [.read stderrPath])
      | .Overwrite => (.ok (), [.read stderrPath, .write stderrPath preferred])

/-- `TestSpec::check_pass` (run.rs lines 297-325), as a pure function of
the build result and the run collaborator's result. Returns the outcome,
whether the run collaborator was invoked, and the reported stdout (build
stdout spliced in front of run stdout). -/
def checkPass (success : Bool) (buildStdout : Str) (variations : List Str)
    (runExitSuccess : Bool) (runStdout : Str) :
    Except Error Unit × Bool × Str :=
  let preferred := variations.getLastD []
  if !success then
    (.error .CargoFail, false, [])
  else
    let reported := buildStdout ++ runStdout
    (if runExitSuccess then .ok () else .error .RunFailed, true, reported)

/-! ## Basic lemmas -/

theorem smartReplace_nil (l rep : Str) : smartReplace l [] rep = l := rfl

/-! ## Claims C1, C2, C8, C9 -/

/-- C1: for every context, stored expectation string and actual compiler
output, the matcher (stored read back with `\r\n` normalized to `\n`, then
compared by `matches`) returns true iff the normalized stored text equals
one of the eight variations of the actual output produced at the levels
`Basic` through `RustLib` in order. -/
theorem C1_matcher_iff (ctx : Context) (stored actual : Str) :
    matchesStored ctx stored actual = true ↔
    ∃ n ∈ VARIATIONS, apply actual n ctx
      = replaceL stored (str "\r\n") (str "\n") := by
  simp [matchesStored, matchesV, variationsOf, List.any_eq_true, beq_iff_eq]

/-- C2: for every test expecting compilation failure whose build reports
exit success, `check_compile_fail` yields the `ShouldNotHaveCompiled`
failure, for every expectation-file state, stored content and update
policy, and performs no filesystem operation (so no expectation file is
read or written). -/
theorem C2_should_not_have_compiled (update : Update) (stderrPath : FPath)
    (stderrExists : Bool) (stored : Str) (variations : List Str) :
    checkCompileFail update true stderrPath stderrExists stored variations
      = (.error .ShouldNotHaveCompiled, []) := rfl

/-- C8: for every test expecting successful compilation whose build
succeeds, `check_pass` invokes the run collaborator, reports the captured
build stdout prepended to the run stdout, and returns success iff the run
process exited successfully (a nonzero run exit yields `RunFailed`). -/
theorem C8_check_pass (buildStdout : Str) (variations : List Str)
    (runExitSuccess : Bool) (runStdout : Str) :
    checkPass true buildStdout variations runExitSuccess runStdout
      = (if runExitSuccess then .ok () else .error .RunFailed, true,
         buildStdout ++ runStdout) := rfl

/-- C9: when the context's crate token, source-directory string and
workspace string are all empty, the three unconditional substitutions of
the line filter leave every line unchanged: an empty-pattern substitution
is a no-op, never a deletion. -/
theorem C9_empty_substitutions (line : Str) :
    substitutions emptyCtx line = line := rfl

/-! ## List helper lemmas -/

theorem isPrefixOf_append_self (p t : Str) : p.isPrefixOf (p ++ t) = true := by
  rw [List.isPrefixOf_iff_prefix]
  exact ⟨t, rfl⟩

theorem eq_append_drop_of_isPrefixOf {p x : Str} (h : p.isPrefixOf x = true) :
    x = p ++ x.drop p.length := by
  rw [List.isPrefixOf_iff_prefix] at h
  obtain ⟨t, rfl⟩ := h
  rw [List.drop_left]

theorem cons_isPrefixOf_iff {c : Char} {p x : Str} :
    (c :: p).isPrefixOf x = true ↔ ∃ t, x = c :: t ∧ p.isPrefixOf t = true := by
  cases x with
  | nil => simp [List.isPrefixOf]
  | cons d t =>
    constructor
    · intro h
      simp only [List.isPrefixOf, Bool.and_eq_true, beq_iff_eq] at h
      exact ⟨t, by rw [h.1], h.2⟩
    · rintro ⟨t', ht', hp⟩
      cases ht'
      simp [List.isPrefixOf, hp]

theorem heads_agree {c d : Char} {p q x : Str}
    (h1 : (c :: p).isPrefixOf x = true) (h2 : (d :: q).isPrefixOf x = true) :
    c = d := by
  obtain ⟨t, rfl, -⟩ := cons_isPrefixOf_iff.mp h1
  obtain ⟨t', ht', -⟩ := cons_isPrefixOf_iff.mp h2
  exact (List.cons.injEq _ _ _ _ ▸ ht').1

theorem isPrefixOf_trimStart_of_head {c : Char} {pat line : Str}
    (hcW : isWs c = false) (h : (c :: pat).isPrefixOf line = true) :
    (c :: pat).isPrefixOf (trimStart line) = true := by
  obtain ⟨t, rfl, hp⟩ := cons_isPrefixOf_iff.mp h
  simp only [trimStart, List.dropWhile_cons, hcW]
  simp [cons_isPrefixOf_iff, hp]

theorem mem_of_isPrefixOf {c : Char} {p x : Str}
    (h : p.isPrefixOf x = true) (hc : c ∈ p) : c ∈ x := by
  rw [List.isPrefixOf_iff_prefix] at h
  obtain ⟨t, rfl⟩ := h
  exact List.mem_append_left _ hc

theorem dropWhile_append_allP {p : Char → Bool} {w : Str} (x : Str)
    (hw : ∀ c ∈ w, p c = true) : (w ++ x).dropWhile p = x.dropWhile p := by
  induction w with
  | nil => rfl
  | cons c w ih =>
    have hc := hw c (List.mem_cons_self _ _)
    simp only [List.cons_append, List.dropWhile_cons, hc, if_true]
    exact ih fun d hd => hw d (List.mem_cons_of_mem _ hd)

theorem hasSub_false_of_missing {c0 : Char} {pat : Str} (s : Str)
    (hc : c0 ∈ pat) (hs : c0 ∉ s) : hasSub pat s = false := by
  induction s with
  | nil =>
    have : pat ≠ [] := fun h => by simp [h] at hc
    simp [hasSub, List.isEmpty, this]
    cases pat with
    | nil => simp at hc
    | cons a p => rfl
  | cons a rest ih =>
    simp only [hasSub, Bool.or_eq_false_iff]
    refine ⟨?_, ih (fun h => hs (List.mem_cons_of_mem _ h))⟩
    by_contra hcon
    rw [Bool.not_eq_false] at hcon
    exact hs (mem_of_isPrefixOf hcon hc)

theorem replaceGo_no_occur {pat rep : Str} :
    ∀ (fuel : Nat) (s : Str), s.length ≤ fuel → hasSub pat s = false →
      replaceGo fuel s pat rep = s := by
  intro fuel
  induction fuel with
  | zero => intro s _ _; cases s <;> rfl
  | succ f ih =>
    intro s hlen hsub
    cases s with
    | nil => rfl
    | cons c rest =>
      simp only [hasSub, Bool.or_eq_false_iff] at hsub
      simp only [replaceGo]
      rw [if_neg]
      · rw [ih rest (by simpa using Nat.le_of_succ_le_succ hlen) hsub.2]
      · rintro ⟨-, hpre⟩
        rw [hsub.1] at hpre
        exact Bool.false_ne_true hpre

theorem replaceL_no_occur {s pat rep : Str} (h : hasSub pat s = false) :
    replaceL s pat rep = s :=
  replaceGo_no_occur s.length s le_rfl h

theorem rfindIdx?_eq_none_iff {p : Char → Bool} {l : Str} :
    rfindIdx? p l = none ↔ ∀ c ∈ l, p c = false := by
  unfold rfindIdx?
  constructor
  · intro h c hc
    cases hfi : l.reverse.findIdx? p with
    | some j => rw [hfi] at h; simp at h
    | none => exact (List.findIdx?_eq_none_iff.mp hfi) c (List.mem_reverse.mpr hc)
  · intro h
    have : l.reverse.findIdx? p = none :=
      List.findIdx?_eq_none_iff.mpr fun c hc => h c (List.mem_reverse.mp hc)
    rw [this]

theorem findIdx?_go_decomp {p : Char → Bool} :
    ∀ (l : Str) (i j : Nat), l.findIdx? p i = some j →
      ∃ X c Y, l = X ++ c :: Y ∧ i + X.length = j ∧ p c = true ∧
        ∀ x ∈ X, p x = false := by
  intro l
  induction l with
  | nil => intro i j h; simp [List.findIdx?] at h
  | cons a l ih =>
    intro i j h
    rw [List.findIdx?_cons] at h
    by_cases hpa : p a = true
    · rw [if_pos hpa] at h
      refine ⟨[], a, l, by simp, by simpa using (Option.some.injEq _ _ ▸ h), hpa, by simp⟩
    · rw [if_neg hpa] at h
      obtain ⟨X, c, Y, rfl, hlen, hc, hall⟩ := ih (i + 1) j h
      refine ⟨a :: X, c, Y, by simp, by simp [← hlen]; omega, hc, ?_⟩
      intro x hx
      rcases List.mem_cons.mp hx with rfl | hx
      · exact Bool.not_eq_true _ ▸ hpa
      · exact hall x hx

theorem rfindIdx?_decomp {p : Char → Bool} {l : Str} {i : Nat}
    (h : rfindIdx? p l = some i) :
    ∃ A c B, l = A ++ c :: B ∧ A.length = i ∧ p c = true ∧
      ∀ x ∈ B, p x = false := by
  unfold rfindIdx? at h
  cases hfi : l.reverse.findIdx? p with
  | none => rw [hfi] at h; simp at h
  | some j =>
    rw [hfi] at h
    obtain ⟨X, c, Y, hrev, hlen, hc, hall⟩ := findIdx?_go_decomp l.reverse 0 j hfi
    have hl : l = Y.reverse ++ c :: X.reverse := by
      have := congrArg List.reverse hrev
      simpa using this
    refine ⟨Y.reverse, c, X.reverse, hl, ?_, hc, fun x hx => hall x (List.mem_reverse.mp hx)⟩
    have hll : l.length = X.length + 1 + Y.length := by
      have := congrArg List.length hrev
      simp at this
      omega
    have hi : i = l.length - 1 - j := by
      have := Option.some.injEq _ _ ▸ h
      omega
    simp only [List.length_reverse]
    omega

theorem rfindIdx?_append_spec {p : Char → Bool} {A : Str} {c : Char} {B : Str}
    (hc : p c = true) (hB : ∀ x ∈ B, p x = false) :
    rfindIdx? p (A ++ c :: B) = some A.length := by
  unfold rfindIdx?
  have hrev : (A ++ c :: B).reverse = B.reverse ++ c :: A.reverse := by simp
  have hBrev : B.reverse.findIdx? p = none :=
    List.findIdx?_eq_none_iff.mpr fun x hx => hB x (List.mem_reverse.mp hx)
  rw [hrev, List.findIdx?_append, hBrev]
  have : (c :: A.reverse).findIdx? p = some 0 := by
    rw [List.findIdx?_cons, if_pos hc]
  rw [this]
  simp

theorem findIdx_append_first {p : Char → Bool} {A : Str} {c : Char} (B : Str)
    (hA : ∀ x ∈ A, p x = false) (hc : p c = true) :
    (A ++ c :: B).findIdx p = A.length := by
  induction A with
  | nil => simp [List.findIdx_cons, hc]
  | cons a A ih =>
    have ha := hA a (List.mem_cons_self _ _)
    simp only [List.cons_append, List.findIdx_cons, ha, cond_false]
    rw [ih fun x hx => hA x (List.mem_cons_of_mem _ hx)]
    simp

/-! ## The location-arrow rewrite (filter rule 1) -/

theorem ws_not_char {x c : Char} (h : isWs x = true) (hc : isWs c = false) :
    decide (x = c) = false := by
  rw [decide_eq_false_iff_not]
  rintro rfl
  rw [h] at hc
  cases hc

theorem ws_not_sep {x : Char} (h : isWs x = true) : isSep x = false := by
  by_contra hcon
  rw [Bool.not_eq_false] at hcon
  unfold isSep at hcon
  simp only [Bool.or_eq_true, decide_eq_true_eq] at hcon
  rcases hcon with rfl | rfl
  · exact absurd h (by decide)
  · exact absurd h (by decide)

theorem filter_eq_arrow {line : Str} {n : Normalization} {ctx : Context}
    {ce : Nat} (h1 : (str "--> ").isPrefixOf (trimStart line) = true)
    (h2 : rfindIdx? isSep line = some ce) :
    filter line n ctx = some (line.take
      (line.findIdx (fun c => c = '>') + 2) ++ str "$DIR/"
      ++ line.drop (ce + 1)) := by
  unfold filter
  rw [if_pos h1, h2]

theorem filter_eq_rest_of_not_arrow {line : Str} {n : Normalization}
    {ctx : Context} (h1 : (str "--> ").isPrefixOf (trimStart line) = false) :
    filter line n ctx = filterRest line n ctx := by
  unfold filter
  rw [if_neg (by simp [h1])]

theorem filter_eq_rest_of_no_sep {line : Str} {n : Normalization}
    {ctx : Context} (h2 : rfindIdx? isSep line = none) :
    filter line n ctx = filterRest line n ctx := by
  unfold filter
  by_cases h1 : (str "--> ").isPrefixOf (trimStart line) = true
  · rw [if_pos h1, h2]
  · rw [if_neg h1]

theorem filter_arrow (w pre S : Str) (c : Char) (n : Normalization)
    (ctx : Context) (hw : ∀ x ∈ w, isWs x = true) (hc : isSep c = true)
    (hS : ∀ x ∈ S, isSep x = false) :
    filter (w ++ str "--> " ++ pre ++ c :: S) n ctx
      = some (w ++ str "--> " ++ str "$DIR/" ++ S) := by
  have harr : str "--> " = '-' :: '-' :: '>' :: ' ' :: [] := rfl
  have htrim : trimStart (w ++ str "--> " ++ pre ++ c :: S)
      = str "--> " ++ (pre ++ c :: S) := by
    unfold trimStart
    rw [List.append_assoc, List.append_assoc, dropWhile_append_allP _ hw,
      ← List.append_assoc, harr]
    rfl
  have hcond : (str "--> ").isPrefixOf
      (trimStart (w ++ str "--> " ++ pre ++ c :: S)) = true := by
    rw [htrim]
    exact isPrefixOf_append_self _ _
  have hrf : rfindIdx? isSep (w ++ str "--> " ++ pre ++ c :: S)
      = some ((w ++ str "--> " ++ pre).length) :=
    rfindIdx?_append_spec hc hS
  rw [filter_eq_arrow hcond hrf]
  have hfi : (w ++ str "--> " ++ pre ++ c :: S).findIdx
      (fun c => c = '>') = w.length + 2 := by
    have hsplit : w ++ str "--> " ++ pre ++ c :: S
        = (w ++ ['-', '-']) ++ '>' :: (' ' :: (pre ++ c :: S)) := by
      simp [harr]
    have hA : ∀ x ∈ w ++ ['-', '-'], decide (x = '>') = false := by
      intro x hx
      rcases List.mem_append.mp hx with hxw | hxd
      · exact ws_not_char (hw x hxw) (by decide)
      · rcases List.mem_cons.mp hxd with rfl | hxd
        · simp
        · simp at hxd
          subst hxd
          simp
    rw [hsplit, findIdx_append_first (' ' :: (pre ++ c :: S)) hA (by simp)]
    simp
  rw [hfi]
  have htake : (w ++ str "--> " ++ pre ++ c :: S).take (w.length + 2 + 2)
      = w ++ str "--> " := by
    rw [List.append_assoc (w ++ str "--> ") pre (c :: S)]
    exact List.take_left'
      (by simp only [harr, List.length_append, List.length_cons,
            List.length_nil])
  have hdrop : (w ++ str "--> " ++ pre ++ c :: S).drop
      ((w ++ str "--> " ++ pre).length + 1) = S := by
    have hsplit : w ++ str "--> " ++ pre ++ c :: S
        = ((w ++ str "--> " ++ pre) ++ [c]) ++ S := by
      simp
    rw [hsplit]
    exact List.drop_left'
      (by simp only [List.length_append, List.length_cons, List.length_nil])
  rw [htake, hdrop]

/-- C3: for every normalization level and every context, a line consisting
of leading whitespace, the location-arrow marker `--> `, and a path whose
final separator is followed by the base name, is kept by the line filter
with everything between the marker and the final path separator replaced by
the `$DIR/` token, leaving `marker ++ $DIR/ ++ base name`. -/
theorem C3_location_arrow (w pre S : Str) (c : Char) (n : Normalization)
    (ctx : Context) (hw : ∀ x ∈ w, isWs x = true) (hc : isSep c = true)
    (hS : ∀ x ∈ S, isSep x = false) :
    filter (w ++ str "--> " ++ pre ++ c :: S) n ctx
      = some (w ++ str "--> " ++ str "$DIR/" ++ S) :=
  filter_arrow w pre S c n ctx hw hc hS

/-- C3 witness: Scenario A. The raw line `--> /home/u/proj/src/lib.rs:3:5`
normalizes to `--> $DIR/lib.rs:3:5` (here at level `Basic` with an empty
context; the theorem quantifies over all levels and contexts). -/
theorem C3_location_arrow_witness :
    (∀ x ∈ ([] : Str), isWs x = true) ∧ isSep '/' = true ∧
    (∀ x ∈ str "lib.rs:3:5", isSep x = false) ∧
    filter ([] ++ str "--> " ++ str "/home/u/proj/src" ++ '/' :: str "lib.rs:3:5")
      .Basic emptyCtx
      = some ([] ++ str "--> " ++ str "$DIR/" ++ str "lib.rs:3:5") :=
  ⟨by decide, by decide, by decide,
   C3_location_arrow [] (str "/home/u/proj/src") (str "lib.rs:3:5") '/'
     .Basic emptyCtx (by decide) (by decide) (by decide)⟩

/-! ## Arrow-marker lines without a path separator (C10) -/

theorem isPrefixOf_self (p : Str) : p.isPrefixOf p = true := by
  have := isPrefixOf_append_self p []
  rwa [List.append_nil] at this

theorem not_pre_of_arrow {line : Str} {c : Char} {p : Str}
    (hpre : (str "--> ").isPrefixOf (trimStart line) = true)
    (hcW : isWs c = false) (hcd : c ≠ '-') :
    (c :: p).isPrefixOf line = false := by
  by_contra hcon
  rw [Bool.not_eq_false] at hcon
  have h2 := isPrefixOf_trimStart_of_head hcW hcon
  have e1 : str "--> " = '-' :: str "-> " := rfl
  rw [e1] at hpre
  exact hcd (heads_agree h2 hpre)

theorem filterRest_else {line : Str} {n : Normalization} {ctx : Context}
    (h1 : (str "::: ").isPrefixOf (trimStart line) = false)
    (h2 : (str "error: aborting due to ").isPrefixOf line = false)
    (h3 : line ≠ str "To learn more, run the command again with --verbose.")
    (h4 : (str "error: Could not compile `").isPrefixOf line = false)
    (h5 : (str "error: could not compile `").isPrefixOf line = false)
    (h6 : (str "For more information about this error, try `rustc --explain").isPrefixOf line = false)
    (h7 : (str "Some errors have detailed explanations:").isPrefixOf line = false)
    (h8 : (str "For more information about an error, try `rustc --explain").isPrefixOf line = false) :
    filterRest line n ctx = some (substitutions ctx
      (if nge n .TrimEnd then
        trimEnd (if nge n .DirBackslash ∧ ctx.source_dir ≠ [] then
          replaceL line (ctx.source_dir ++ ['\\']) (str "$DIR/") else line)
       else (if nge n .DirBackslash ∧ ctx.source_dir ≠ [] then
          replaceL line (ctx.source_dir ++ ['\\']) (str "$DIR/") else line))) := by
  unfold filterRest
  rw [if_neg (by simp [h1]), if_neg (by simp [h2]), if_neg h3,
    if_neg (fun hc => Bool.false_ne_true (h4 ▸ hc.2)),
    if_neg (fun hc => Bool.false_ne_true (h5 ▸ hc.2)),
    if_neg (fun hc => Bool.false_ne_true (h6 ▸ hc.2)),
    if_neg (fun hc => hc.2.elim (fun ha => Bool.false_ne_true (h7 ▸ ha))
      (fun hb => Bool.false_ne_true (h8 ▸ hb)))]

/-- C10: a line that begins, after leading whitespace, with the location
arrow marker `--> ` but contains no path separator is not rewritten by the
location-arrow rule: it falls through, is kept by the filter at every level
and context, and only the level-conditional end-trimming and the
unconditional substitutions may alter it. -/
theorem C10_arrow_no_sep (line : Str) (n : Normalization) (ctx : Context)
    (hpre : (str "--> ").isPrefixOf (trimStart line) = true)
    (hnosep : ∀ c ∈ line, isSep c = false) :
    filter line n ctx = some (substitutions ctx
      (if nge n .TrimEnd then trimEnd line else line)) := by
  have hrfn : rfindIdx? isSep line = none := rfindIdx?_eq_none_iff.mpr hnosep
  have hbs : '\\' ∉ line := fun hmem =>
    absurd (hnosep '\\' hmem) (by decide)
  have h1 : (str "::: ").isPrefixOf (trimStart line) = false := by
    by_contra hcon
    rw [Bool.not_eq_false] at hcon
    rw [show str "::: " = ':' :: str ":: " from rfl] at hcon
    have hpre' := hpre
    rw [show str "--> " = '-' :: str "-> " from rfl] at hpre'
    exact absurd (heads_agree hcon hpre') (by decide)
  have h2 : (str "error: aborting due to ").isPrefixOf line = false := by
    rw [show str "error: aborting due to "
      = 'e' :: str "rror: aborting due to " from rfl]
    exact not_pre_of_arrow hpre (by decide) (by decide)
  have h3 : line ≠ str "To learn more, run the command again with --verbose." := by
    intro heq
    have hp : ('T' :: str "o learn more, run the command again with --verbose.").isPrefixOf line = true := by
      rw [heq]
      exact isPrefixOf_self _
    rw [not_pre_of_arrow hpre (by decide) (by decide)] at hp
    cases hp
  have h4 : (str "error: Could not compile `").isPrefixOf line = false := by
    rw [show str "error: Could not compile `"
      = 'e' :: str "rror: Could not compile `" from rfl]
    exact not_pre_of_arrow hpre (by decide) (by decide)
  have h5 : (str "error: could not compile `").isPrefixOf line = false := by
    rw [show str "error: could not compile `"
      = 'e' :: str "rror: could not compile `" from rfl]
    exact not_pre_of_arrow hpre (by decide) (by decide)
  have h6 : (str "For more information about this error, try `rustc --explain").isPrefixOf line = false := by
    rw [show str "For more information about this error, try `rustc --explain"
      = 'F' :: str "or more information about this error, try `rustc --explain" from rfl]
    exact not_pre_of_arrow hpre (by decide) (by decide)
  have h7 : (str "Some errors have detailed explanations:").isPrefixOf line = false := by
    rw [show str "Some errors have detailed explanations:"
      = 'S' :: str "ome errors have detailed explanations:" from rfl]
    exact not_pre_of_arrow hpre (by decide) (by decide)
  have h8 : (str "For more information about an error, try `rustc --explain").isPrefixOf line = false := by
    rw [show str "For more information about an error, try `rustc --explain"
      = 'F' :: str "or more information about an error, try `rustc --explain" from rfl]
    exact not_pre_of_arrow hpre (by decide) (by decide)
  rw [filter_eq_rest_of_no_sep hrfn,
    filterRest_else h1 h2 h3 h4 h5 h6 h7 h8]
  have hl2 : (if nge n .DirBackslash ∧ ctx.source_dir ≠ [] then
      replaceL line (ctx.source_dir ++ ['\\']) (str "$DIR/") else line)
      = line := by
    split
    · exact replaceL_no_occur
        (hasSub_false_of_missing line (List.mem_append_right _ (by simp)) hbs)
    · rfl
  rw [hl2]

/-- C10 witness: the line `--> lib.rs:3:5` (no path separator) at level
`Basic` with a non-empty context falls through to the general rules. -/
theorem C10_arrow_no_sep_witness :
    ((str "--> ").isPrefixOf (trimStart (str "--> lib.rs:3:5")) = true) ∧
    (∀ c ∈ str "--> lib.rs:3:5", isSep c = false) ∧
    filter (str "--> lib.rs:3:5") .Basic ⟨str "x", str "y", str "z"⟩
      = some (substitutions ⟨str "x", str "y", str "z"⟩
          (if nge .Basic .TrimEnd then trimEnd (str "--> lib.rs:3:5")
           else str "--> lib.rs:3:5")) :=
  ⟨by decide, by decide,
   C10_arrow_no_sep (str "--> lib.rs:3:5") .Basic ⟨str "x", str "y", str "z"⟩
     (by decide) (by decide)⟩

/-! ## Trailing-newline structure of normalized output (C4) -/

/-- `x` ends with exactly one newline: its last character is a newline and
the character before it (if any) is not. -/
def endsOneNl (x : Str) : Bool :=
  match x.reverse with
  | [] => false
  | c :: rest => c = '\n' && !(decide (rest.headD ' ' = '\n'))

theorem dropWhile_head_false {p : Char → Bool} {c : Char} {r : Str} :
    ∀ {l : Str}, l.dropWhile p = c :: r → p c = false := by
  intro l
  induction l with
  | nil => intro h; cases h
  | cons a t ih =>
    intro h
    rw [List.dropWhile_cons] at h
    by_cases hpa : p a = true
    · rw [if_pos hpa] at h
      exact ih h
    · rw [if_neg hpa] at h
      cases h
      exact Bool.not_eq_true _ ▸ hpa

theorem trimEnd_last_not_ws (X : Str) :
    trimEnd X = [] ∨ ∃ t c, trimEnd X = t ++ [c] ∧ isWs c = false := by
  unfold trimEnd
  cases h : X.reverse.dropWhile isWs with
  | nil => left; rfl
  | cons c r =>
    right
    exact ⟨r.reverse, c, by simp, dropWhile_head_false h⟩

theorem endsOneNl_append (t : Str) (c : Char) (hc : isWs c = false) :
    endsOneNl ((t ++ [c]) ++ ['\n']) = true := by
  have hcne : c ≠ '\n' := fun h => by
    rw [h] at hc
    exact absurd hc (by decide)
  unfold endsOneNl
  have hrev : ((t ++ [c]) ++ ['\n']).reverse = '\n' :: c :: t.reverse := by
    simp
  rw [hrev]
  simp [hcne]

theorem trim_spec (X : Str) : trim X = [] ∨ endsOneNl (trim X) = true := by
  unfold trim
  rcases trimEnd_last_not_ws X with h | ⟨t, c, h, hc⟩
  · rw [h]
    left
    rfl
  · rw [h, if_neg (by simp)]
    right
    exact endsOneNl_append t c hc

/-- C4 counterexample: the non-empty raw text
`error: aborting due to 2 previous errors\n` (Scenario B of the spec) has
an empty `Basic` variation, which therefore does not end with a trailing
newline — contradicting the claim that every variation of a non-empty raw
text ends with exactly one newline. -/
theorem C4_counterexample :
    (str "error: aborting due to 2 previous errors\n" ≠ ([] : Str)) ∧
    apply (str "error: aborting due to 2 previous errors\n") .Basic emptyCtx
      = [] ∧
    endsOneNl (apply (str "error: aborting due to 2 previous errors\n")
      .Basic emptyCtx) = false := by
  refine ⟨by decide, by decide, by decide⟩

/-- C4 (amended): for every raw text, level and context, each variation is
either empty or ends with exactly one trailing newline; for empty raw
input every variation is the empty string. (The original claim said every
variation of a non-empty input ends with a newline; a non-empty input all
of whose lines are dropped yields an empty variation.) -/
theorem C4_amended (s : Str) (n : Normalization) (ctx : Context) :
    (apply s n ctx = [] ∨ endsOneNl (apply s n ctx) = true) ∧
    (s = [] → apply s n ctx = []) := by
  constructor
  · exact trim_spec _
  · rintro rfl
    rfl

/-- C4 witness: the amended theorem applied at the concrete inputs `hi`
(whose `Basic` variation is `hi\n`) and the empty input. -/
theorem C4_amended_witness :
    (apply (str "hi") .Basic emptyCtx = [] ∨
      endsOneNl (apply (str "hi") .Basic emptyCtx) = true) ∧
    apply ([] : Str) .Basic emptyCtx = [] :=
  ⟨(C4_amended (str "hi") .Basic emptyCtx).1,
   (C4_amended [] .Basic emptyCtx).2 rfl⟩

/-! ## RecordPending (Wip) scratch writes (C5) -/

/-- C5 counterexample: for a compile-fail test whose source file lives in
the `wip` directory itself (path `wip/foo.rs`), the scratch write targets
`wip/foo.stderr`, which IS the authoritative expectation path — so "the
authoritative expectation path is not created or modified" fails. -/
theorem C5_counterexample :
    FsOp.write (stderrPathOf [str "wip", str "foo.rs"]) (str "x\n") ∈
      (checkCompileFail .Wip false (stderrPathOf [str "wip", str "foo.rs"])
        false [] [str "x\n"]).2 := by decide

/-- C5 (amended): for every compile-fail test whose build fails and whose
expectation file does not exist, under the `Wip` policy the effect trace is
exactly: create the scratch dir `wip`, write an ignore-all marker
`wip/.gitignore` containing `*`, and write the preferred variation's exact
bytes to a scratch file named after the expectation file; the outcome is
success. Provided the expectation path is not itself one of the two scratch
paths (it is when the test lives inside `wip/`), the authoritative
expectation path is never written. -/
theorem C5_amended (stderrPath : FPath) (stored : Str)
    (variations : List Str)
    (hg : stderrPath ≠ [str "wip", str ".gitignore"])
    (hw : stderrPath ≠ [str "wip", fileName stderrPath]) :
    checkCompileFail .Wip false stderrPath false stored variations
      = (.ok (), [.createDirAll [str "wip"],
          .write [str "wip", str ".gitignore"] (str "*\n"),
          .write [str "wip", fileName stderrPath] (variations.getLastD [])]) ∧
    ∀ content, FsOp.write stderrPath content ∉
      (checkCompileFail .Wip false stderrPath false stored variations).2 := by
  refine ⟨rfl, ?_⟩
  intro content hmem
  have hmem' : FsOp.write stderrPath content ∈
      [FsOp.createDirAll [str "wip"],
       FsOp.write [str "wip", str ".gitignore"] (str "*\n"),
       FsOp.write [str "wip", fileName stderrPath]
         (variations.getLastD [])] := hmem
  rcases List.mem_cons.mp hmem' with h | hmem'
  · exact FsOp.noConfusion h
  rcases List.mem_cons.mp hmem' with h | hmem'
  · injection h with h1 h2
    exact hg h1
  rcases List.mem_cons.mp hmem' with h | hmem'
  · injection h with h1 h2
    exact hw h1
  · simp at hmem'

/-- C5 witness: a test at `tests/ui/x.rs` (expectation `tests/ui/x.stderr`)
with preferred variation `v\n`: the scratch file, ignore marker and outcome
are as stated, and the authoritative path is not written. -/
theorem C5_amended_witness :
    ([str "tests", str "ui", str "x.stderr"]
        ≠ [str "wip", str ".gitignore"]) ∧
    ([str "tests", str "ui", str "x.stderr"]
        ≠ [str "wip", fileName [str "tests", str "ui", str "x.stderr"]]) ∧
    checkCompileFail .Wip false [str "tests", str "ui", str "x.stderr"]
        false [] [str "v\n"]
      = (.ok (), [.createDirAll [str "wip"],
          .write [str "wip", str ".gitignore"] (str "*\n"),
          .write [str "wip",
            fileName [str "tests", str "ui", str "x.stderr"]]
            (([str "v\n"] : List Str).getLastD [])]) ∧
    FsOp.write [str "tests", str "ui", str "x.stderr"] (str "zz") ∉
      (checkCompileFail .Wip false [str "tests", str "ui", str "x.stderr"]
        false [] [str "v\n"]).2 :=
  ⟨by decide, by decide,
   (C5_amended [str "tests", str "ui", str "x.stderr"] [] [str "v\n"]
     (by decide) (by decide)).1,
   (C5_amended [str "tests", str "ui", str "x.stderr"] [] [str "v\n"]
     (by decide) (by decide)).2 (str "zz")⟩

/-! ## Round-trip of the preferred variation (C6) -/

/-- C6 counterexample: for the compiler output `--> a/b\r\r\nc` (a line
ending in a bare carriage return before the newline), the preferred
variation contains `\r\n`; reading it back normalizes `\r\n` to `\n`, so
the matcher rejects its own freshly stored preferred variation. -/
theorem C6_counterexample :
    matchesStored emptyCtx (diagnostics (str "--> a/b\r\r\nc") emptyCtx)
      (str "--> a/b\r\r\nc") = false := by decide

/-- C6 (amended): whenever the preferred variation contains no `\r\n`
sequence (true of any compiler output without bare carriage returns),
storing it as the expectation file and re-running the matcher on the same
compiler output succeeds; consequently, under either update policy,
`check_compile_fail` reports success and performs no write — re-running
with identical compiler output leaves an identical expectation file. -/
theorem C6_amended (raw : Str) (ctx : Context) (update : Update) (p : FPath)
    (hno : hasSub (str "\r\n") (diagnostics raw ctx) = false) :
    matchesStored ctx (diagnostics raw ctx) raw = true ∧
    checkCompileFail update false p true (diagnostics raw ctx)
        (variationsOf raw ctx)
      = (.ok (), [.read p]) := by
  have hcrlf : replaceL (diagnostics raw ctx) (str "\r\n") (str "\n")
      = diagnostics raw ctx := replaceL_no_occur hno
  have hmem : diagnostics raw ctx ∈ variationsOf raw ctx := by
    unfold diagnostics variationsOf
    exact List.mem_map.mpr ⟨.RustLib, by simp [VARIATIONS], rfl⟩
  have hany : (variationsOf raw ctx).any
      (fun v => v == replaceL (diagnostics raw ctx) (str "\r\n")
        (str "\n")) = true := by
    rw [hcrlf]
    exact List.any_eq_true.mpr ⟨_, hmem, beq_self_eq_true _⟩
  constructor
  · unfold matchesStored matchesV
    exact hany
  · have hred : checkCompileFail update false p true (diagnostics raw ctx)
        (variationsOf raw ctx)
        = if (variationsOf raw ctx).any (fun v => v ==
            replaceL (diagnostics raw ctx) (str "\r\n") (str "\n")) then
            ((.ok (), [.read p]) : Except Error Unit × List FsOp)
          else match update with
            | .Wip => (.error .Mismatch, [.read p])
            | .Overwrite => (.ok (), [.read p,
                .write p ((variationsOf raw ctx).getLastD [])]) := rfl
    rw [hred, if_pos hany]

/-- C6 witness: round trip for the raw output `hi` whose preferred
variation `hi\n` contains no `\r\n`, under the `Wip` policy. -/
theorem C6_amended_witness :
    hasSub (str "\r\n") (diagnostics (str "hi") emptyCtx) = false ∧
    matchesStored emptyCtx (diagnostics (str "hi") emptyCtx) (str "hi")
      = true ∧
    checkCompileFail .Wip false [str "t.stderr"] true
        (diagnostics (str "hi") emptyCtx)
        (variationsOf (str "hi") emptyCtx)
      = (.ok (), [.read [str "t.stderr"]]) :=
  ⟨by decide,
   (C6_amended (str "hi") emptyCtx .Wip [str "t.stderr"] (by decide)).1,
   (C6_amended (str "hi") emptyCtx .Wip [str "t.stderr"] (by decide)).2⟩

/-! ## Idempotence infrastructure: lines / render (C7) -/

/-- Concatenation of lines, each terminated by a newline. -/
def render (M : List Str) : Str := M.foldr (fun l acc => l ++ '\n' :: acc) []

theorem render_nil : render [] = [] := rfl

theorem render_cons (l : Str) (M : List Str) :
    render (l :: M) = l ++ '\n' :: render M := rfl

theorem render_append (A B : List Str) :
    render (A ++ B) = render A ++ render B := by
  induction A with
  | nil => rfl
  | cons l A ih => simp [render_cons, ih]

theorem splitNl_cons (c : Char) (rest : Str) :
    splitNl (c :: rest) = if c = '\n' then [] :: splitNl rest
      else (splitNl rest).modifyHead (fun s => c :: s) := rfl

theorem lines_def (s : Str) :
    lines s = ((splitNl s).dropLast.map stripCr) ++
      (if (splitNl s).getLastD [] = [] then []
       else [(splitNl s).getLastD []]) := rfl

theorem splitNl_ne_nil (s : Str) : splitNl s ≠ [] := by
  induction s with
  | nil => simp [splitNl]
  | cons c rest ih =>
    rw [splitNl_cons]
    split
    · simp
    · cases h : splitNl rest with
      | nil => exact absurd h ih
      | cons a t => simp

theorem splitNl_no_nl (s : Str) (h : '\n' ∉ s) : splitNl s = [s] := by
  induction s with
  | nil => rfl
  | cons c rest ih =>
    have hc : ¬(c = '\n') := fun hh => h (hh ▸ List.mem_cons_self _ _)
    unfold splitNl
    rw [if_neg hc, ih (fun hm => h (List.mem_cons_of_mem _ hm))]
    rfl

theorem splitNl_append_cons (l r : Str) (h : '\n' ∉ l) :
    splitNl (l ++ '\n' :: r) = l :: splitNl r := by
  induction l with
  | nil => simp [splitNl]
  | cons c t ih =>
    have hc : ¬(c = '\n') := fun hh => h (hh ▸ List.mem_cons_self _ _)
    have ih' := ih (fun hm => h (List.mem_cons_of_mem _ hm))
    simp only [List.cons_append]
    rw [splitNl_cons, if_neg hc, ih', List.modifyHead_cons]

theorem splitNl_render (M : List Str) (h : ∀ l ∈ M, '\n' ∉ l) :
    splitNl (render M) = M ++ [[]] := by
  induction M with
  | nil => rfl
  | cons l M ih =>
    rw [render_cons, splitNl_append_cons l _ (h l (List.mem_cons_self _ _)),
      ih (fun x hx => h x (List.mem_cons_of_mem _ hx))]
    rfl

theorem stripCr_eq_self {l : Str} (h : l.getLast? ≠ some '\r') :
    stripCr l = l := by
  unfold stripCr
  rw [if_neg h]

theorem lines_render (M : List Str)
    (h : ∀ l ∈ M, '\n' ∉ l ∧ l.getLast? ≠ some '\r') :
    lines (render M) = M := by
  rw [lines_def, splitNl_render M (fun l hl => (h l hl).1)]
  have h1 : (M ++ [[]]).getLastD [] = ([] : Str) := by simp
  have h2 : (M ++ ([[]] : List Str)).dropLast = M := List.dropLast_concat
  rw [h1, h2, if_pos rfl, List.append_nil]
  have : ∀ N : List Str, (∀ l ∈ N, l.getLast? ≠ some '\r') →
      N.map stripCr = N := by
    intro N hN
    induction N with
    | nil => rfl
    | cons a t ih =>
      rw [List.map_cons, stripCr_eq_self (hN a (List.mem_cons_self _ _)),
        ih (fun x hx => hN x (List.mem_cons_of_mem _ hx))]
  exact this M (fun l hl => (h l hl).2)

theorem splitNl_mem_chars {s l : Str} (hl : l ∈ splitNl s) {c : Char}
    (hc : c ∈ l) : c ∈ s := by
  induction s generalizing l with
  | nil =>
    simp [splitNl] at hl
    subst hl
    cases hc
  | cons a t ih =>
    unfold splitNl at hl
    by_cases ha : a = '\n'
    · rw [if_pos ha] at hl
      rcases List.mem_cons.mp hl with rfl | hl
      · cases hc
      · exact List.mem_cons_of_mem _ (ih hl hc)
    · rw [if_neg ha] at hl
      cases hsp : splitNl t with
      | nil => exact absurd hsp (splitNl_ne_nil t)
      | cons hd tl =>
        rw [hsp, List.modifyHead_cons] at hl
        rcases List.mem_cons.mp hl with rfl | hl
        · rcases List.mem_cons.mp hc with rfl | hc
          · exact List.mem_cons_self _ _
          · exact List.mem_cons_of_mem _ (ih (hsp ▸ List.mem_cons_self _ _) hc)
        · exact List.mem_cons_of_mem _ (ih (hsp ▸ List.mem_cons_of_mem _ hl) hc)

theorem splitNl_no_nl_mem {s l : Str} (hl : l ∈ splitNl s) : '\n' ∉ l := by
  induction s generalizing l with
  | nil =>
    simp [splitNl] at hl
    subst hl
    simp
  | cons a t ih =>
    unfold splitNl at hl
    by_cases ha : a = '\n'
    · rw [if_pos ha] at hl
      rcases List.mem_cons.mp hl with rfl | hl
      · simp
      · exact ih hl
    · rw [if_neg ha] at hl
      cases hsp : splitNl t with
      | nil => exact absurd hsp (splitNl_ne_nil t)
      | cons hd tl =>
        rw [hsp, List.modifyHead_cons] at hl
        rcases List.mem_cons.mp hl with rfl | hl
        · intro hmem
          rcases List.mem_cons.mp hmem with heq | hmem
          · exact ha heq.symm
          · exact ih (hsp ▸ List.mem_cons_self _ _) hmem
        · exact ih (hsp ▸ List.mem_cons_of_mem _ hl)

theorem mem_stripCr_sub {l : Str} {c : Char} (h : c ∈ stripCr l) : c ∈ l := by
  unfold stripCr at h
  split at h
  · exact (List.dropLast_sublist _).subset h
  · exact h

theorem lines_elem_facts {s l : Str} (hl : l ∈ lines s) :
    '\n' ∉ l ∧ ∀ c ∈ l, c ∈ s := by
  unfold lines at hl
  rcases List.mem_append.mp hl with hl | hl
  · obtain ⟨l0, hl0, rfl⟩ := List.mem_map.mp hl
    have hl0' : l0 ∈ splitNl s := (List.dropLast_sublist _).subset hl0
    exact ⟨fun hm => splitNl_no_nl_mem hl0' (mem_stripCr_sub hm),
      fun c hc => splitNl_mem_chars hl0' (mem_stripCr_sub hc)⟩
  · split at hl
    · cases hl
    · rcases List.mem_cons.mp hl with rfl | hl
      · have hmem : (splitNl s).getLastD [] ∈ splitNl s := by
          cases hsp : splitNl s with
          | nil => exact absurd hsp (splitNl_ne_nil s)
          | cons a t =>
            rw [List.getLastD_eq_getLast?]
            cases hgl : (a :: t).getLast? with
            | none => simp at hgl
            | some x =>
              simp only [Option.getD_some]
              have := List.getLast?_eq_getLast (a :: t) (by simp)
              rw [this] at hgl
              cases hgl
              exact List.getLast_mem _
        exact ⟨splitNl_no_nl_mem hmem, fun c hc => splitNl_mem_chars hmem hc⟩
      · cases hl

/-! ## Idempotence infrastructure: the blank-collapsing join (C7) -/

/-- Does the text end with a newline? -/
def endsNl (x : Str) : Bool :=
  match x.reverse with
  | c :: _ => c = '\n'
  | [] => false

/-- The list of lines actually laid down by the `apply` loop, tracking the
number of trailing newlines of the accumulated text (capped at 2): an empty
kept line is skipped exactly when the text already ends in a blank line. -/
def collapseT : Nat → List Str → List Str
  | _, [] => []
  | t, l :: rest =>
    if l = [] then
      (if 2 ≤ t then collapseT t rest else [] :: collapseT (t + 1) rest)
    else l :: collapseT 1 rest

theorem collapseT_nil (t : Nat) : collapseT t [] = [] := rfl

theorem collapseT_cons (t : Nat) (l : Str) (K : List Str) :
    collapseT t (l :: K) = if l = [] then
      (if 2 ≤ t then collapseT t K else [] :: collapseT (t + 1) K)
    else l :: collapseT 1 K := rfl

theorem joinStep_def (acc l : Str) :
    joinStep acc l = if joinStep.endsNlNl (acc ++ l) = true then acc ++ l
      else (acc ++ l) ++ ['\n'] := rfl

theorem endsNlNl_append_nl (x : Str) :
    joinStep.endsNlNl (x ++ ['\n']) = endsNl x := by
  unfold joinStep.endsNlNl endsNl
  rw [List.reverse_append]
  cases hx : x.reverse with
  | nil => rfl
  | cons d r => simp

theorem endsNl_append_nl (x : Str) : endsNl (x ++ ['\n']) = true := by
  unfold endsNl
  rw [List.reverse_append]
  simp

theorem endsNlNl_concat (y : Str) (c : Char) (hc : ¬(c = '\n')) :
    joinStep.endsNlNl (y ++ [c]) = false := by
  unfold joinStep.endsNlNl
  rw [List.reverse_append]
  cases hy : y.reverse with
  | nil => rfl
  | cons d r => simp [hc]

theorem endsNl_concat (y : Str) (c : Char) :
    endsNl (y ++ [c]) = decide (c = '\n') := by
  unfold endsNl
  rw [List.reverse_append]
  simp

theorem foldl_joinStep (K : List Str) : ∀ (acc : Str) (t : Nat),
    (∀ l ∈ K, '\n' ∉ l) →
    (endsNl acc = true ↔ 1 ≤ t) →
    (joinStep.endsNlNl acc = true ↔ 2 ≤ t) →
    List.foldl joinStep acc K = acc ++ render (collapseT t K) := by
  induction K with
  | nil =>
    intro acc t _ _ _
    simp [collapseT_nil, render_nil]
  | cons l K ih =>
    intro acc t hnl h1 h2
    rw [List.foldl_cons]
    by_cases hl : l = []
    · subst hl
      rw [collapseT_cons, if_pos rfl]
      by_cases ht : 2 ≤ t
      · have hstep : joinStep acc [] = acc := by
          rw [joinStep_def, List.append_nil, if_pos (h2.mpr ht)]
        rw [hstep, if_pos ht]
        exact ih acc t (fun x hx => hnl x (List.mem_cons_of_mem _ hx)) h1 h2
      · have hstep : joinStep acc [] = acc ++ ['\n'] := by
          rw [joinStep_def, List.append_nil,
            if_neg (fun hcon => ht (h2.mp hcon))]
        rw [hstep, if_neg ht]
        have inv1 : endsNl (acc ++ ['\n']) = true ↔ 1 ≤ t + 1 :=
          iff_of_true (endsNl_append_nl acc) (by omega)
        have inv2 : joinStep.endsNlNl (acc ++ ['\n']) = true ↔ 2 ≤ t + 1 := by
          rw [endsNlNl_append_nl, h1]
          omega
        rw [ih (acc ++ ['\n']) (t + 1)
          (fun x hx => hnl x (List.mem_cons_of_mem _ hx)) inv1 inv2]
        simp [render_cons]
    · obtain ⟨L, c, rfl⟩ : ∃ L c, l = L ++ [c] := by
        rcases List.eq_nil_or_concat l with rfl | ⟨L, c, hLc⟩
        · exact absurd rfl hl
        · exact ⟨L, c, by rw [hLc, List.concat_eq_append]⟩
      have hc : ¬(c = '\n') := fun hcc =>
        hnl _ (List.mem_cons_self _ _) (hcc ▸ List.mem_append_right _
          (List.mem_cons_self _ _))
      have hstep : joinStep acc (L ++ [c]) = (acc ++ (L ++ [c])) ++ ['\n'] := by
        rw [joinStep_def, if_neg]
        rw [← List.append_assoc]
        rw [endsNlNl_concat _ _ hc]
        simp
      rw [collapseT_cons, if_neg hl, hstep]
      have inv1 : endsNl ((acc ++ (L ++ [c])) ++ ['\n']) = true ↔ 1 ≤ 1 :=
        iff_of_true (endsNl_append_nl _) (by omega)
      have inv2 : joinStep.endsNlNl ((acc ++ (L ++ [c])) ++ ['\n']) = true
          ↔ 2 ≤ 1 := by
        rw [endsNlNl_append_nl, ← List.append_assoc, endsNl_concat]
        simp [hc]
      rw [ih ((acc ++ (L ++ [c])) ++ ['\n']) 1
        (fun x hx => hnl x (List.mem_cons_of_mem _ hx)) inv1 inv2]
      simp [render_cons]
  
theorem joinL_eq_render (K : List Str) (hnl : ∀ l ∈ K, '\n' ∉ l) :
    joinL K = render (collapseT 0 K) := by
  have h := foldl_joinStep K [] 0 hnl
    (iff_of_false (by decide) (by omega)) (iff_of_false (by decide) (by omega))
  simpa using h

theorem collapseT_length : ∀ (K : List Str) (t : Nat),
    (collapseT t K).length ≤ K.length := by
  intro K
  induction K with
  | nil => intro t; simp [collapseT_nil]
  | cons l K ih =>
    intro t
    rw [collapseT_cons]
    split
    · split
      · exact Nat.le_trans (ih t) (by simp)
      · simpa using ih (t + 1)
    · simpa using ih 1

theorem collapseT_mem : ∀ {K : List Str} {t : Nat} {l : Str},
    l ∈ collapseT t K → l ∈ K := by
  intro K
  induction K with
  | nil => intro t l h; simp [collapseT_nil] at h
  | cons a K ih =>
    intro t l h
    rw [collapseT_cons] at h
    split at h
    · split at h
      · exact List.mem_cons_of_mem _ (ih h)
      · rcases List.mem_cons.mp h with rfl | h
        · simp_all
        · exact List.mem_cons_of_mem _ (ih h)
    · rcases List.mem_cons.mp h with rfl | h
      · exact List.mem_cons_self _ _
      · exact List.mem_cons_of_mem _ (ih h)

theorem collapseT_idem : ∀ (K : List Str) (t : Nat),
    collapseT t (collapseT t K) = collapseT t K := by
  intro K
  induction K with
  | nil => intro t; rfl
  | cons l K ih =>
    intro t
    rw [collapseT_cons]
    by_cases hl : l = []
    · rw [if_pos hl]
      by_cases ht : 2 ≤ t
      · rw [if_pos ht, ih]
      · rw [if_neg ht, collapseT_cons, if_pos rfl, if_neg ht, ih]
    · rw [if_neg hl, collapseT_cons, if_neg hl, ih]

theorem collapseT_prefix_stable : ∀ (P : List Str) (S : List Str) (t : Nat),
    collapseT t (P ++ S) = P ++ S → collapseT t P = P := by
  intro P
  induction P with
  | nil => intro S t _; rfl
  | cons l P' ih =>
    intro S t h
    rw [List.cons_append, collapseT_cons] at h
    rw [collapseT_cons]
    by_cases hl : l = []
    · subst hl
      rw [if_pos rfl] at h ⊢
      by_cases ht : 2 ≤ t
      · rw [if_pos ht] at h ⊢
        exfalso
        have hle := collapseT_length (P' ++ S) t
        have hlen : (collapseT t (P' ++ S)).length = (P' ++ S).length + 1 := by
          rw [h]
          rfl
        omega
      · rw [if_neg ht] at h ⊢
        have h' := (List.cons.injEq _ _ _ _ ▸ h).2
        rw [ih S (t + 1) h']
    · rw [if_neg hl] at h ⊢
      have h' := (List.cons.injEq _ _ _ _ ▸ h).2
      rw [ih S 1 h']

theorem collapseT_concat_swap : ∀ (A : List Str) (t : Nat) {b b' : Str},
    collapseT t (A ++ [b]) = A ++ [b] → b ≠ [] → b' ≠ [] →
    collapseT t (A ++ [b']) = A ++ [b'] := by
  intro A
  induction A with
  | nil =>
    intro t b b' _ _ hb'
    rw [List.nil_append, collapseT_cons, if_neg hb']
    rfl
  | cons a A' ih =>
    intro t b b' h hb hb'
    rw [List.cons_append, collapseT_cons] at h
    rw [List.cons_append, collapseT_cons]
    by_cases ha : a = []
    · subst ha
      rw [if_pos rfl] at h ⊢
      by_cases ht : 2 ≤ t
      · rw [if_pos ht] at h ⊢
        exfalso
        have hle := collapseT_length (A' ++ [b]) t
        have hlen : (collapseT t (A' ++ [b])).length
            = (A' ++ [b]).length + 1 := by
          rw [h]
          rfl
        omega
      · rw [if_neg ht] at h ⊢
        have h' := (List.cons.injEq _ _ _ _ ▸ h).2
        rw [ih (t + 1) h' hb hb']
    · rw [if_neg ha] at h ⊢
      have h' := (List.cons.injEq _ _ _ _ ▸ h).2
      rw [ih 1 h' hb hb']

/-! ## Idempotence infrastructure: trimming the rendered text (C7) -/

theorem dropWhile_head_false_gen {α : Type} {p : α → Bool} {c : α} {r : List α} :
    ∀ {l : List α}, l.dropWhile p = c :: r → p c = false := by
  intro l
  induction l with
  | nil => intro h; cases h
  | cons a t ih =>
    intro h
    rw [List.dropWhile_cons] at h
    by_cases hpa : p a = true
    · rw [if_pos hpa] at h
      exact ih h
    · rw [if_neg hpa] at h
      cases h
      exact Bool.not_eq_true _ ▸ hpa

theorem trimEnd_append_allWs {B : Str} (A : Str)
    (hB : ∀ c ∈ B, isWs c = true) : trimEnd (A ++ B) = trimEnd A := by
  unfold trimEnd
  rw [List.reverse_append,
    dropWhile_append_allP _ (fun c hc => hB c (List.mem_reverse.mp hc))]

theorem trimEnd_concat_not_ws (A : Str) {c : Char} (hc : isWs c = false) :
    trimEnd (A ++ [c]) = A ++ [c] := by
  unfold trimEnd
  rw [List.reverse_append]
  simp only [List.reverse_cons, List.reverse_nil, List.nil_append,
    List.singleton_append, List.dropWhile_cons, hc]
  simp

theorem trimEnd_idem (l : Str) : trimEnd (trimEnd l) = trimEnd l := by
  rcases trimEnd_last_not_ws l with h | ⟨t, c, h, hc⟩
  · rw [h]
    rfl
  · rw [h, trimEnd_concat_not_ws t hc]

theorem trimEnd_decomp (l : Str) :
    ∃ wsfx, l = trimEnd l ++ wsfx ∧ ∀ c ∈ wsfx, isWs c = true := by
  refine ⟨(l.reverse.takeWhile isWs).reverse, ?_, ?_⟩
  · unfold trimEnd
    rw [← List.reverse_append, List.takeWhile_append_dropWhile,
      List.reverse_reverse]
  · intro c hc
    exact List.mem_takeWhile_imp (List.mem_reverse.mp hc)

theorem trimEnd_all_ws {l : Str} (h : ∀ c ∈ l, isWs c = true) :
    trimEnd l = [] := by
  rcases trimEnd_last_not_ws l with hh | ⟨t, c, hh, hc⟩
  · exact hh
  · exfalso
    obtain ⟨wsfx, hdec, -⟩ := trimEnd_decomp l
    have hcl : c ∈ l := by
      rw [hdec, hh]
      exact List.mem_append_left _ (List.mem_append_right _
        (List.mem_cons_self _ _))
    rw [h c hcl] at hc
    cases hc

theorem trimEnd_ne_nil {l : Str} {c : Char} (hc : c ∈ l)
    (hw : isWs c = false) : trimEnd l ≠ [] := by
  intro hnil
  obtain ⟨wsfx, hdec, hws⟩ := trimEnd_decomp l
  rw [hnil, List.nil_append] at hdec
  rw [hws c (hdec ▸ hc)] at hw
  cases hw

/-- Drop the trailing run of empty lines. -/
def dtE (X : List Str) : List Str :=
  (X.reverse.dropWhile (fun l => l.isEmpty)).reverse

theorem dtE_decomp (X : List Str) :
    ∃ E, X = dtE X ++ E ∧ ∀ l ∈ E, l = [] := by
  refine ⟨(X.reverse.takeWhile (fun l => l.isEmpty)).reverse, ?_, ?_⟩
  · unfold dtE
    rw [← List.reverse_append, List.takeWhile_append_dropWhile,
      List.reverse_reverse]
  · intro l hl
    exact List.isEmpty_iff.mp (List.mem_takeWhile_imp (List.mem_reverse.mp hl))

theorem dtE_last_ne_nil {X A : List Str} {b : Str}
    (h : dtE X = A ++ [b]) : b ≠ [] := by
  unfold dtE at h
  have h' := congrArg List.reverse h
  rw [List.reverse_reverse, List.reverse_append] at h'
  simp only [List.reverse_cons, List.reverse_nil, List.nil_append,
    List.singleton_append] at h'
  have hb := dropWhile_head_false_gen h'
  exact fun hnil => by
    rw [hnil] at hb
    cases hb

theorem dtE_of_last_ne_nil {A : List Str} {b : Str} (hb : b ≠ []) :
    dtE (A ++ [b]) = A ++ [b] := by
  unfold dtE
  rw [List.reverse_append]
  simp only [List.reverse_cons, List.reverse_nil, List.nil_append,
    List.singleton_append, List.dropWhile_cons]
  rw [if_neg (by simp [hb])]
  simp

/-- Apply a function to the last element of a list. -/
def modLast (f : Str → Str) : List Str → List Str
  | [] => []
  | [x] => [f x]
  | x :: xs => x :: modLast f xs

theorem modLast_concat (f : Str → Str) (A : List Str) (b : Str) :
    modLast f (A ++ [b]) = A ++ [f b] := by
  induction A with
  | nil => rfl
  | cons a A' ih =>
    cases A' with
    | nil => rfl
    | cons a2 A'' =>
      have step : modLast f (a :: a2 :: (A'' ++ [b]))
          = a :: modLast f (a2 :: (A'' ++ [b])) := rfl
      simp only [List.cons_append] at ih ⊢
      rw [step, ih]

theorem render_empty_chars {E : List Str} (hE : ∀ l ∈ E, l = []) :
    ∀ c ∈ render E, isWs c = true := by
  induction E with
  | nil => intro c hc; cases hc
  | cons l E' ih =>
    intro c hc
    rw [render_cons, hE l (List.mem_cons_self _ _), List.nil_append] at hc
    rcases List.mem_cons.mp hc with rfl | hc
    · decide
    · exact ih (fun x hx => hE x (List.mem_cons_of_mem _ hx)) c hc

theorem trim_render_eq (X : List Str)
    (hfine : ∀ l ∈ X, l = [] ∨ ∃ c ∈ l, isWs c = false) :
    trim (render X) = render (modLast trimEnd (dtE X)) := by
  obtain ⟨E, hXdec, hE⟩ := dtE_decomp X
  rcases List.eq_nil_or_concat (dtE X) with hP | ⟨A, b, hP'⟩
  · -- the whole list is trailing empties: everything trims away
    have hXE : X = E := by rw [hXdec, hP, List.nil_append]
    have hws : ∀ c ∈ render X, isWs c = true := hXE ▸ render_empty_chars hE
    have htE : trimEnd (render X) = [] := trimEnd_all_ws hws
    unfold trim
    rw [if_pos htE, hP]
    rfl
  · have hP : dtE X = A ++ [b] := by rw [hP', List.concat_eq_append]
    have hb : b ≠ [] := dtE_last_ne_nil hP
    have hbX : b ∈ X := by
      rw [hXdec, hP]
      exact List.mem_append_left _ (List.mem_append_right _
        (List.mem_cons_self _ _))
    obtain ⟨c0, hc0b, hc0w⟩ : ∃ c ∈ b, isWs c = false := by
      rcases hfine b hbX with rfl | h
      · exact absurd rfl hb
      · exact h
    have htb : trimEnd b ≠ [] := trimEnd_ne_nil hc0b hc0w
    obtain ⟨t, c', htbs, hc'⟩ :
        ∃ t c', trimEnd b = t ++ [c'] ∧ isWs c' = false := by
      rcases trimEnd_last_not_ws b with hh | ⟨t, c', hh, hc'⟩
      · exact absurd hh htb
      · exact ⟨t, c', hh, hc'⟩
    obtain ⟨wsfx, hbdec, hwsfx⟩ := trimEnd_decomp b
    have hrX : render X = render (A ++ [b]) ++ render E := by
      rw [hXdec, hP, render_append]
    have hrab : render (A ++ [b]) = (render A ++ b) ++ ['\n'] := by
      rw [render_append]
      simp [render_cons, render_nil]
    have hte : trimEnd (render X) = render A ++ trimEnd b := by
      rw [hrX, trimEnd_append_allWs _ (render_empty_chars hE), hrab,
        trimEnd_append_allWs _ (by intro c hc; simp at hc; rw [hc]; decide)]
      calc trimEnd (render A ++ b)
          = trimEnd ((render A ++ trimEnd b) ++ wsfx) := by
            rw [List.append_assoc, ← hbdec]
        _ = trimEnd (render A ++ trimEnd b) :=
            trimEnd_append_allWs _ hwsfx
        _ = render A ++ trimEnd b := by
            rw [htbs, ← List.append_assoc]
            rw [trimEnd_concat_not_ws _ hc']
    have htne : trimEnd (render X) ≠ [] := by
      rw [hte]
      intro hcon
      exact htb (List.append_eq_nil.mp hcon).2
    unfold trim
    rw [if_neg htne, hte, hP, modLast_concat, render_append]
    simp [render_cons, render_nil]

/-! ## Idempotence infrastructure: line fixpoints (C7) -/

theorem substitutions_emptyCtx (l : Str) : substitutions emptyCtx l = l := rfl

theorem nil_isPrefixOf (x : Str) : ([] : Str).isPrefixOf x = true := by
  cases x <;> rfl

theorem isPrefixOf_nil_inv {pat : Str} (h : pat.isPrefixOf [] = true) :
    pat = [] := by
  cases pat with
  | nil => rfl
  | cons c p => simp [List.isPrefixOf] at h

theorem isPrefixOf_append_right {pat A : Str} (B : Str)
    (h : pat.isPrefixOf A = true) : pat.isPrefixOf (A ++ B) = true := by
  rw [List.isPrefixOf_iff_prefix] at h ⊢
  obtain ⟨t, rfl⟩ := h
  exact ⟨t ++ B, by simp⟩

theorem dropWhile_append_ne {p : Char → Bool} {A : Str} {d : Char} {r : Str}
    (B : Str) (h : A.dropWhile p = d :: r) :
    (A ++ B).dropWhile p = d :: (r ++ B) := by
  induction A with
  | nil => cases h
  | cons a t ih =>
    rw [List.dropWhile_cons] at h
    by_cases hpa : p a = true
    · rw [if_pos hpa] at h
      rw [List.cons_append, List.dropWhile_cons, if_pos hpa]
      exact ih h
    · rw [if_neg hpa] at h
      cases h
      rw [List.cons_append, List.dropWhile_cons, if_neg hpa]

theorem mem_trimEnd_sub {x : Str} {c : Char} (h : c ∈ trimEnd x) : c ∈ x := by
  obtain ⟨wsfx, hdec, -⟩ := trimEnd_decomp x
  rw [hdec]
  exact List.mem_append_left _ h

theorem prefix_trimStart_trimEnd {pat x : Str}
    (h : pat.isPrefixOf (trimStart (trimEnd x)) = true) :
    pat.isPrefixOf (trimStart x) = true := by
  obtain ⟨wsfx, hdec, hws⟩ := trimEnd_decomp x
  cases hd : (trimEnd x).dropWhile isWs with
  | nil =>
    have : trimStart (trimEnd x) = [] := hd
    rw [this] at h
    rw [isPrefixOf_nil_inv h]
    exact nil_isPrefixOf _
  | cons d r =>
    have h1 : trimStart x = d :: (r ++ wsfx) := by
      unfold trimStart
      conv_lhs => rw [hdec]
      exact dropWhile_append_ne wsfx hd
    have h2 : trimStart (trimEnd x) = d :: r := hd
    rw [h2] at h
    rw [h1, show d :: (r ++ wsfx) = (d :: r) ++ wsfx from rfl]
    exact isPrefixOf_append_right wsfx h

theorem isPrefixOf_of_trimEnd {pat x : Str}
    (h : pat.isPrefixOf (trimEnd x) = true) : pat.isPrefixOf x = true := by
  obtain ⟨wsfx, hdec, -⟩ := trimEnd_decomp x
  rw [hdec]
  exact isPrefixOf_append_right wsfx h

theorem filterRest_inv {line l : Str}
    (hcol : (str "::: ").isPrefixOf (trimStart line) = false)
    (hsome : filterRest line .RustLib emptyCtx = some l) :
    l = trimEnd line ∧
    ¬((str "error: aborting due to ").isPrefixOf line = true) ∧
    line ≠ str "To learn more, run the command again with --verbose." ∧
    ¬((str "error: Could not compile `").isPrefixOf line = true) ∧
    ¬((str "error: could not compile `").isPrefixOf line = true) ∧
    ¬((str "For more information about this error, try `rustc --explain").isPrefixOf line = true) ∧
    ¬((str "Some errors have detailed explanations:").isPrefixOf line = true) ∧
    ¬((str "For more information about an error, try `rustc --explain").isPrefixOf line = true) := by
  have hA : ¬((str "error: aborting due to ").isPrefixOf line = true) := by
    intro hc
    unfold filterRest at hsome
    rw [if_neg (by simp [hcol]), if_pos hc] at hsome
    exact Option.noConfusion hsome
  have hB : line ≠ str "To learn more, run the command again with --verbose." := by
    intro hc
    unfold filterRest at hsome
    rw [if_neg (by simp [hcol]), if_neg hA, if_pos hc] at hsome
    exact Option.noConfusion hsome
  have hC : ¬((str "error: Could not compile `").isPrefixOf line = true) := by
    intro hc
    unfold filterRest at hsome
    rw [if_neg (by simp [hcol]), if_neg hA, if_neg hB,
      if_pos ⟨by decide, hc⟩] at hsome
    exact Option.noConfusion hsome
  have hD : ¬((str "error: could not compile `").isPrefixOf line = true) := by
    intro hc
    unfold filterRest at hsome
    rw [if_neg (by simp [hcol]), if_neg hA, if_neg hB,
      if_neg (fun hand => hC hand.2), if_pos ⟨by decide, hc⟩] at hsome
    exact Option.noConfusion hsome
  have hE : ¬((str "For more information about this error, try `rustc --explain").isPrefixOf line = true) := by
    intro hc
    unfold filterRest at hsome
    rw [if_neg (by simp [hcol]), if_neg hA, if_neg hB,
      if_neg (fun hand => hC hand.2), if_neg (fun hand => hD hand.2),
      if_pos ⟨by decide, hc⟩] at hsome
    exact Option.noConfusion hsome
  have hF : ¬((str "Some errors have detailed explanations:").isPrefixOf line = true) := by
    intro hc
    unfold filterRest at hsome
    rw [if_neg (by simp [hcol]), if_neg hA, if_neg hB,
      if_neg (fun hand => hC hand.2), if_neg (fun hand => hD hand.2),
      if_neg (fun hand => hE hand.2),
      if_pos ⟨by decide, Or.inl hc⟩] at hsome
    exact Option.noConfusion hsome
  have hG : ¬((str "For more information about an error, try `rustc --explain").isPrefixOf line = true) := by
    intro hc
    unfold filterRest at hsome
    rw [if_neg (by simp [hcol]), if_neg hA, if_neg hB,
      if_neg (fun hand => hC hand.2), if_neg (fun hand => hD hand.2),
      if_neg (fun hand => hE hand.2),
      if_pos ⟨by decide, Or.inr hc⟩] at hsome
    exact Option.noConfusion hsome
  refine ⟨?_, hA, hB, hC, hD, hE, hF, hG⟩
  rw [filterRest_else hcol (Bool.not_eq_true _ ▸ hA) hB
    (Bool.not_eq_true _ ▸ hC) (Bool.not_eq_true _ ▸ hD)
    (Bool.not_eq_true _ ▸ hE) (Bool.not_eq_true _ ▸ hF)
    (Bool.not_eq_true _ ▸ hG)] at hsome
  rw [if_pos (show nge Normalization.RustLib Normalization.TrimEnd = true
      by decide),
    if_neg (show ¬(nge Normalization.RustLib Normalization.DirBackslash = true
        ∧ emptyCtx.source_dir ≠ []) from fun hand => hand.2 rfl),
    substitutions_emptyCtx] at hsome
  exact (Option.some.injEq _ _ ▸ hsome).symm

theorem arrow_fix (w S' : Str) (hw : ∀ x ∈ w, isWs x = true)
    (hS' : ∀ x ∈ S', isSep x = false) :
    filter (w ++ str "--> " ++ str "$DIR/" ++ S') .RustLib emptyCtx
      = some (w ++ str "--> " ++ str "$DIR/" ++ S') := by
  have h := filter_arrow w (str "$DIR") S' '/' .RustLib emptyCtx hw
    (by decide) hS'
  have harg : w ++ str "--> " ++ str "$DIR" ++ '/' :: S'
      = w ++ str "--> " ++ str "$DIR/" ++ S' := by
    rw [show str "$DIR/" = str "$DIR" ++ ['/'] from rfl]
    simp
  rw [harg] at h
  exact h

theorem trimEnd_arrow_out (w S : Str) :
    trimEnd (w ++ str "--> " ++ str "$DIR/" ++ S)
      = w ++ str "--> " ++ str "$DIR/" ++ trimEnd S := by
  obtain ⟨wsfx, hS, hws⟩ := trimEnd_decomp S
  have harg : w ++ str "--> " ++ str "$DIR/" ++ S
      = (w ++ str "--> " ++ str "$DIR/" ++ trimEnd S) ++ wsfx := by
    conv_lhs => rw [hS]
    simp [List.append_assoc]
  rw [harg, trimEnd_append_allWs _ hws]
  rcases trimEnd_last_not_ws S with h0 | ⟨t, c, h0, hc⟩
  · rw [h0, List.append_nil]
    rw [show str "$DIR/" = str "$DIR" ++ ['/'] from rfl, ← List.append_assoc,
      trimEnd_concat_not_ws _ (by decide)]
  · rw [h0, ← List.append_assoc, trimEnd_concat_not_ws _ hc]

theorem arrow_chars : (∀ x ∈ str "--> ", isSep x = false) ∧
    ('\n' ∉ str "--> ") ∧ ('\r' ∉ str "--> ") ∧
    ('\n' ∉ str "$DIR/") ∧ ('\r' ∉ str "$DIR/") ∧ ('$' ∈ str "$DIR/") ∧
    isWs '$' = false := by decide

theorem filter_fix_general {l₀ l : Str}
    (hnl : '\n' ∉ l₀) (hcr : '\r' ∉ l₀)
    (hcol : (str "::: ").isPrefixOf (trimStart l₀) = false)
    (hverb : trimEnd l₀
      ≠ str "To learn more, run the command again with --verbose.")
    (hsep_or : (str "--> ").isPrefixOf (trimStart l₀) = false ∨
      (∀ c ∈ l₀, isSep c = false))
    (hfr : filterRest l₀ .RustLib emptyCtx = some l) :
    filter l .RustLib emptyCtx = some l ∧
    filter (trimEnd l) .RustLib emptyCtx = some (trimEnd l) ∧
    '\n' ∉ l ∧ '\r' ∉ l ∧ (l = [] ∨ ∃ c ∈ l, isWs c = false) := by
  obtain ⟨hl, hA, hB, hC, hD, hE, hF, hG⟩ := filterRest_inv hcol hfr
  subst hl
  have hroute : filter (trimEnd l₀) .RustLib emptyCtx
      = filterRest (trimEnd l₀) .RustLib emptyCtx := by
    by_cases hpre2 : (str "--> ").isPrefixOf (trimStart (trimEnd l₀)) = true
    · have harr0 := prefix_trimStart_trimEnd hpre2
      have hnosep : ∀ c ∈ l₀, isSep c = false :=
        hsep_or.resolve_left (by simp [harr0])
      exact filter_eq_rest_of_no_sep (rfindIdx?_eq_none_iff.mpr
        (fun c hc => hnosep c (mem_trimEnd_sub hc)))
    · exact filter_eq_rest_of_not_arrow (Bool.not_eq_true _ ▸ hpre2)
  have hcol2 : (str "::: ").isPrefixOf (trimStart (trimEnd l₀)) = false := by
    by_contra hcon
    rw [Bool.not_eq_false] at hcon
    rw [prefix_trimStart_trimEnd hcon] at hcol
    cases hcol
  have hpre_of : ∀ pat : Str, ¬(pat.isPrefixOf l₀ = true) →
      pat.isPrefixOf (trimEnd l₀) = false := fun pat hp => by
    by_contra hcon
    rw [Bool.not_eq_false] at hcon
    exact hp (isPrefixOf_of_trimEnd hcon)
  have hrest : filterRest (trimEnd l₀) .RustLib emptyCtx
      = some (substitutions emptyCtx
          (if nge Normalization.RustLib Normalization.TrimEnd then
            trimEnd (if nge Normalization.RustLib Normalization.DirBackslash
                ∧ emptyCtx.source_dir ≠ [] then
              replaceL (trimEnd l₀) (emptyCtx.source_dir ++ ['\\'])
                (str "$DIR/") else trimEnd l₀)
          else (if nge Normalization.RustLib Normalization.DirBackslash
                ∧ emptyCtx.source_dir ≠ [] then
              replaceL (trimEnd l₀) (emptyCtx.source_dir ++ ['\\'])
                (str "$DIR/") else trimEnd l₀))) :=
    filterRest_else hcol2 (hpre_of _ hA) hverb
      (hpre_of _ hC) (hpre_of _ hD) (hpre_of _ hE) (hpre_of _ hF)
      (hpre_of _ hG)
  have hfix : filter (trimEnd l₀) .RustLib emptyCtx = some (trimEnd l₀) := by
    rw [hroute, hrest,
      if_pos (show nge Normalization.RustLib Normalization.TrimEnd = true
        by decide),
      if_neg (show ¬(nge Normalization.RustLib Normalization.DirBackslash
          = true ∧ emptyCtx.source_dir ≠ []) from fun hand => hand.2 rfl),
      substitutions_emptyCtx, trimEnd_idem]
  refine ⟨hfix, by rw [trimEnd_idem]; exact hfix,
    fun hm => hnl (mem_trimEnd_sub hm), fun hm => hcr (mem_trimEnd_sub hm),
    ?_⟩
  rcases trimEnd_last_not_ws l₀ with h0 | ⟨t, c, h0, hc⟩
  · exact Or.inl h0
  · exact Or.inr ⟨c, h0 ▸ List.mem_append_right _ (List.mem_cons_self _ _),
      hc⟩

theorem filter_fix_arrow {l₀ l : Str} {ce : Nat}
    (hnl : '\n' ∉ l₀) (hcr : '\r' ∉ l₀)
    (harr : (str "--> ").isPrefixOf (trimStart l₀) = true)
    (hrf : rfindIdx? isSep l₀ = some ce)
    (hf : filter l₀ .RustLib emptyCtx = some l) :
    filter l .RustLib emptyCtx = some l ∧
    filter (trimEnd l) .RustLib emptyCtx = some (trimEnd l) ∧
    '\n' ∉ l ∧ '\r' ∉ l ∧ (l = [] ∨ ∃ c ∈ l, isWs c = false) := by
  have hw : ∀ x ∈ l₀.takeWhile isWs, isWs x = true :=
    fun x hx => List.mem_takeWhile_imp hx
  have hsplit : l₀ = l₀.takeWhile isWs ++ trimStart l₀ :=
    (List.takeWhile_append_dropWhile isWs l₀).symm
  have harr2 : trimStart l₀
      = str "--> " ++ (trimStart l₀).drop (str "--> ").length :=
    eq_append_drop_of_isPrefixOf harr
  by_cases hrsep : ∀ x ∈ (trimStart l₀).drop (str "--> ").length,
      isSep x = false
  · exfalso
    have hall : ∀ x ∈ l₀, isSep x = false := by
      intro x hx
      rw [hsplit] at hx
      rcases List.mem_append.mp hx with hx | hx
      · exact ws_not_sep (hw x hx)
      · rw [harr2] at hx
        rcases List.mem_append.mp hx with hx | hx
        · exact (by decide : ∀ y ∈ str "--> ", isSep y = false) x hx
        · exact hrsep x hx
    rw [rfindIdx?_eq_none_iff.mpr hall] at hrf
    cases hrf
  · obtain ⟨i, hri⟩ : ∃ i, rfindIdx? isSep
        ((trimStart l₀).drop (str "--> ").length) = some i := by
      cases hri : rfindIdx? isSep ((trimStart l₀).drop (str "--> ").length)
      case none => exact absurd (rfindIdx?_eq_none_iff.mp hri) hrsep
      case some i => exact ⟨i, rfl⟩
    obtain ⟨pre, c, S, hrdec, -, hcsep, hSsep⟩ := rfindIdx?_decomp hri
    have hL : l₀ = l₀.takeWhile isWs ++ str "--> " ++ pre ++ c :: S := by
      conv_lhs => rw [hsplit, harr2, hrdec]
      simp [List.append_assoc]
    have hfa := filter_arrow (l₀.takeWhile isWs) pre S c .RustLib emptyCtx
      hw hcsep hSsep
    rw [← hL] at hfa
    rw [hfa] at hf
    have hlval : l = l₀.takeWhile isWs ++ str "--> " ++ str "$DIR/" ++ S :=
      ((Option.some.injEq _ _).mp hf).symm
    have hSsub : ∀ x ∈ S, x ∈ l₀ := by
      intro x hx
      rw [hL]
      exact List.mem_append_right _ (List.mem_cons_of_mem _ hx)
    have hwsub : ∀ x ∈ l₀.takeWhile isWs, x ∈ l₀ := by
      intro x hx
      have hmm := List.mem_append_left (trimStart l₀) hx
      rwa [← hsplit] at hmm
    subst hlval
    refine ⟨arrow_fix _ _ hw hSsep, ?_, ?_, ?_, ?_⟩
    · rw [trimEnd_arrow_out]
      exact arrow_fix _ _ hw (fun x hx => hSsep x (mem_trimEnd_sub hx))
    · intro hm
      rcases List.mem_append.mp hm with hm1 | hmS
      · rcases List.mem_append.mp hm1 with hm2 | hmD
        · rcases List.mem_append.mp hm2 with hmW | hmM
          · exact hnl (hwsub _ hmW)
          · exact absurd hmM (by decide)
        · exact absurd hmD (by decide)
      · exact hnl (hSsub _ hmS)
    · intro hm
      rcases List.mem_append.mp hm with hm1 | hmS
      · rcases List.mem_append.mp hm1 with hm2 | hmD
        · rcases List.mem_append.mp hm2 with hmW | hmM
          · exact hcr (hwsub _ hmW)
          · exact absurd hmM (by decide)
        · exact absurd hmD (by decide)
      · exact hcr (hSsub _ hmS)
    · exact Or.inr ⟨'$', List.mem_append_left _ (List.mem_append_right _
        (by decide)), by decide⟩

theorem filter_fix {l₀ l : Str}
    (hnl : '\n' ∉ l₀) (hcr : '\r' ∉ l₀)
    (hcol : (str "::: ").isPrefixOf (trimStart l₀) = false)
    (hverb : trimEnd l₀
      ≠ str "To learn more, run the command again with --verbose.")
    (hf : filter l₀ .RustLib emptyCtx = some l) :
    filter l .RustLib emptyCtx = some l ∧
    filter (trimEnd l) .RustLib emptyCtx = some (trimEnd l) ∧
    '\n' ∉ l ∧ '\r' ∉ l ∧ (l = [] ∨ ∃ c ∈ l, isWs c = false) := by
  by_cases harr : (str "--> ").isPrefixOf (trimStart l₀) = true
  · cases hrf : rfindIdx? isSep l₀ with
    | some ce => exact filter_fix_arrow hnl hcr harr hrf hf
    | none =>
      rw [filter_eq_rest_of_no_sep hrf] at hf
      exact filter_fix_general hnl hcr hcol hverb
        (Or.inr (rfindIdx?_eq_none_iff.mp hrf)) hf
  · have harr' : (str "--> ").isPrefixOf (trimStart l₀) = false :=
      Bool.not_eq_true _ ▸ harr
    rw [filter_eq_rest_of_not_arrow harr'] at hf
    exact filter_fix_general hnl hcr hcol hverb (Or.inl harr') hf

theorem filterMap_fixpoints (M : List Str)
    (h : ∀ l ∈ M, filter l .RustLib emptyCtx = some l) :
    M.filterMap (fun l => filter l .RustLib emptyCtx) = M := by
  induction M with
  | nil => rfl
  | cons a t ih =>
    rw [List.filterMap_cons, h a (List.mem_cons_self _ _),
      ih (fun x hx => h x (List.mem_cons_of_mem _ hx))]

theorem mem_of_getLast?' {l : Str} {c : Char} (h : l.getLast? = some c) :
    c ∈ l := by
  rcases List.eq_nil_or_concat l with rfl | ⟨A, a, hA⟩
  · cases h
  · rw [hA, List.concat_eq_append] at h ⊢
    rw [List.getLast?_concat] at h
    cases h
    exact List.mem_append_right _ (List.mem_cons_self _ _)

theorem render_roundtrip (K : List Str)
    (hK : ∀ l ∈ K, filter l .RustLib emptyCtx = some l ∧
      filter (trimEnd l) .RustLib emptyCtx = some (trimEnd l) ∧
      '\n' ∉ l ∧ '\r' ∉ l ∧ (l = [] ∨ ∃ c ∈ l, isWs c = false)) :
    apply (trim (joinL K)) .RustLib emptyCtx = trim (joinL K) := by
  have hXmem : ∀ l ∈ collapseT 0 K, l ∈ K := fun l hl => collapseT_mem hl
  have hT : trim (joinL K)
      = render (modLast trimEnd (dtE (collapseT 0 K))) := by
    rw [joinL_eq_render K (fun l hl => (hK l hl).2.2.1),
      trim_render_eq _ (fun l hl => (hK l (hXmem l hl)).2.2.2.2)]
  rcases List.eq_nil_or_concat (dtE (collapseT 0 K)) with hdte | ⟨A, b, hdte'⟩
  · rw [hT, hdte]
    rfl
  · have hdte : dtE (collapseT 0 K) = A ++ [b] := by
      rw [hdte', List.concat_eq_append]
    have hMAb : modLast trimEnd (dtE (collapseT 0 K)) = A ++ [trimEnd b] := by
      rw [hdte, modLast_concat]
    have hbnil : b ≠ [] := dtE_last_ne_nil hdte
    have hbX : b ∈ collapseT 0 K := by
      obtain ⟨E, hXdec, -⟩ := dtE_decomp (collapseT 0 K)
      rw [hXdec, hdte]
      exact List.mem_append_left _ (List.mem_append_right _
        (List.mem_cons_self _ _))
    have hbK := hK b (hXmem b hbX)
    have htb_ne : trimEnd b ≠ [] := by
      rcases hbK.2.2.2.2 with rfl | ⟨c, hc, hcw⟩
      · exact absurd rfl hbnil
      · exact trimEnd_ne_nil hc hcw
    have hAmem : ∀ l ∈ A, l ∈ K := by
      intro l hl
      apply hXmem
      obtain ⟨E, hXdec, -⟩ := dtE_decomp (collapseT 0 K)
      rw [hXdec, hdte]
      exact List.mem_append_left _ (List.mem_append_left _ hl)
    have hMfix : ∀ l ∈ A ++ [trimEnd b],
        filter l .RustLib emptyCtx = some l := by
      intro l hl
      rcases List.mem_append.mp hl with hl | hl
      · exact (hK l (hAmem l hl)).1
      · rcases List.mem_cons.mp hl with rfl | hl
        · exact hbK.2.1
        · cases hl
    have hMnl : ∀ l ∈ A ++ [trimEnd b],
        '\n' ∉ l ∧ l.getLast? ≠ some '\r' := by
      intro l hl
      have base : '\n' ∉ l ∧ '\r' ∉ l := by
        rcases List.mem_append.mp hl with hl | hl
        · exact ⟨(hK l (hAmem l hl)).2.2.1, (hK l (hAmem l hl)).2.2.2.1⟩
        · rcases List.mem_cons.mp hl with rfl | hl
          · exact ⟨fun hm => hbK.2.2.1 (mem_trimEnd_sub hm),
              fun hm => hbK.2.2.2.1 (mem_trimEnd_sub hm)⟩
          · cases hl
      exact ⟨base.1, fun hgl => base.2 (mem_of_getLast?' hgl)⟩
    have hMfine : ∀ l ∈ A ++ [trimEnd b],
        l = [] ∨ ∃ c ∈ l, isWs c = false := by
      intro l hl
      rcases List.mem_append.mp hl with hl | hl
      · exact (hK l (hAmem l hl)).2.2.2.2
      · rcases List.mem_cons.mp hl with rfl | hl
        · rcases trimEnd_last_not_ws b with h0 | ⟨t, c, h0, hc⟩
          · exact absurd h0 htb_ne
          · exact Or.inr ⟨c, h0 ▸ List.mem_append_right _
              (List.mem_cons_self _ _), hc⟩
        · cases hl
    have hXX : collapseT 0 (collapseT 0 K) = collapseT 0 K :=
      collapseT_idem K 0
    have hdteP : collapseT 0 (dtE (collapseT 0 K)) = dtE (collapseT 0 K) := by
      obtain ⟨E, hXdec, -⟩ := dtE_decomp (collapseT 0 K)
      exact collapseT_prefix_stable _ E 0 (by rw [← hXdec]; exact hXX)
    have hMM : collapseT 0 (A ++ [trimEnd b]) = A ++ [trimEnd b] :=
      collapseT_concat_swap A 0 (hdte ▸ hdteP) hbnil htb_ne
    have happly2 : apply (render (A ++ [trimEnd b])) .RustLib emptyCtx
        = trim (render (A ++ [trimEnd b])) := by
      show trim (joinL ((lines (render (A ++ [trimEnd b]))).filterMap
        (fun l => filter l .RustLib emptyCtx))) = _
      rw [lines_render _ hMnl, filterMap_fixpoints _ hMfix,
        joinL_eq_render _ (fun l hl => (hMnl l hl).1), hMM]
    have htrM : trim (render (A ++ [trimEnd b]))
        = render (A ++ [trimEnd b]) := by
      rw [trim_render_eq _ hMfine, dtE_of_last_ne_nil htb_ne,
        modLast_concat, trimEnd_idem]
    rw [hT, hMAb, happly2, htrM]

/-- C7 counterexample: normalization at the most aggressive level is not
idempotent for every text, even with the empty context: the line
`To learn more, run the command again with --verbose. ` (note the trailing
space) survives the first pass (the drop rule requires exact equality) and
is end-trimmed into the exact hint sentence, which the second pass drops. -/
theorem C7_counterexample :
    apply (apply (str "To learn more, run the command again with --verbose. ")
        .RustLib emptyCtx) .RustLib emptyCtx
      ≠ apply (str "To learn more, run the command again with --verbose. ")
        .RustLib emptyCtx := by decide

/-- C7 (amended): normalization at the most aggressive level (`RustLib`) is
idempotent for every raw text that contains no carriage return, no line
whose whitespace-trimmed form starts with the secondary marker `::: `, and
no line that end-trims to the verbose hint sentence, under the context
whose crate token, source directory and workspace strings are all empty
(the `Project::new()` default). -/
theorem C7_amended (s : Str) (hcr : '\r' ∉ s)
    (hcol : ∀ l ∈ lines s, (str "::: ").isPrefixOf (trimStart l) = false)
    (hverb : ∀ l ∈ lines s,
      trimEnd l ≠ str "To learn more, run the command again with --verbose.") :
    apply (apply s .RustLib emptyCtx) .RustLib emptyCtx
      = apply s .RustLib emptyCtx := by
  have hKfacts : ∀ l ∈ (lines s).filterMap
      (fun l => filter l .RustLib emptyCtx),
      filter l .RustLib emptyCtx = some l ∧
      filter (trimEnd l) .RustLib emptyCtx = some (trimEnd l) ∧
      '\n' ∉ l ∧ '\r' ∉ l ∧ (l = [] ∨ ∃ c ∈ l, isWs c = false) := by
    intro l hl
    obtain ⟨l₀, hl₀, hfl₀⟩ := List.mem_filterMap.mp hl
    obtain ⟨hnl₀, hsub₀⟩ := lines_elem_facts hl₀
    exact filter_fix hnl₀ (fun hm => hcr (hsub₀ _ hm)) (hcol l₀ hl₀)
      (hverb l₀ hl₀) hfl₀
  exact render_roundtrip _ hKfacts

/-- C7 witness: the amended idempotence applied to the concrete raw text
`--> /home/u/proj/src/lib.rs:3:5\nboom`, which satisfies all three
side conditions. -/
theorem C7_amended_witness :
    ('\r' ∉ str "--> /home/u/proj/src/lib.rs:3:5\nboom") ∧
    (∀ l ∈ lines (str "--> /home/u/proj/src/lib.rs:3:5\nboom"),
      (str "::: ").isPrefixOf (trimStart l) = false) ∧
    (∀ l ∈ lines (str "--> /home/u/proj/src/lib.rs:3:5\nboom"),
      trimEnd l ≠ str "To learn more, run the command again with --verbose.") ∧
    apply (apply (str "--> /home/u/proj/src/lib.rs:3:5\nboom")
        .RustLib emptyCtx) .RustLib emptyCtx
      = apply (str "--> /home/u/proj/src/lib.rs:3:5\nboom")
        .RustLib emptyCtx :=
  ⟨by decide, by decide, by decide,
   C7_amended (str "--> /home/u/proj/src/lib.rs:3:5\nboom") (by decide)
     (by decide) (by decide)⟩
